import Mathlib

/- A verification development for the cfn-mod packaging tool
   (src/cfnmod/cfnmod.py).

   The Python code is shallowly embedded: the local filesystem, the S3
   object store, the YAML library and the digest function are explicit,
   deterministic parameters, and every embedded function is a computable
   Lean definition translated clause by clause from the source.  A zip
   container is a deterministic serialization of its ordered entry list
   (fixed-size headers, ZIP_STORED compression, per-entry name, date,
   external attributes and data), so archives are compared at the level
   of their ordered entry lists. -/

namespace CfnMod

/-- A regular file as seen by the archiver: its bytes, the answer of the
`os.access(path, os.X_OK)` query, and the stat metadata that
`zipfile.ZipInfo.from_file` reads (`st_mtime` already converted to a zip
date tuple, and `st_mode`). -/
structure FileInfo where
  content : List Nat
  exec : Bool
  mtime : Nat × Nat × Nat × Nat × Nat × Nat
  mode : Nat

/-- The filesystem visible to `create_zip`, addressed by (folder,
relative path), mirroring the `pushd(folder)` scoping in the source.
`none` means `os.path.isfile` is false there (missing, or not a regular
file). -/
def FS : Type := String → String → Option FileInfo

/-- One archive entry.  `extAttrib` models the `external_attr` field of
`zipfile.ZipInfo` and `date_time` its date tuple. -/
structure ZipEntry where
  filename : String
  date_time : Nat × Nat × Nat × Nat × Nat × Nat
  extAttrib : Nat
  content : List Nat
deriving DecidableEq

/-- The parsed form of a `module.yml` manifest as far as the tool touches
it: `conf["module"]["version"]` is the `version` field; every other key
the document may carry is kept opaque in `rest`. -/
structure Conf where
  version : String
  rest : List (String × String)
deriving DecidableEq

/-- The YAML library as a pair of deterministic functions.  `parse`
models `yaml.load` followed by the `conf["module"][...]` accesses:
`none` means the Python code would raise (malformed document or missing
keys).  `dump` models `yaml.dump`. -/
structure YamlModel where
  parse : List Nat → Option Conf
  dump : Conf → List Nat

/-- `stat.S_IFREG`. -/
def S_IFREG : Nat := 0o100000

/-- `add_file(zip_file, path, in_zip_path)` (source lines 35-42).
`execBit` is `os.access(path, os.X_OK)`; `srcMtime`/`srcMode` are the
stat data of `in_zip_path` read by `ZipInfo.from_file`; `data` is the
byte content read from `path`.  The date and attribute fields set by
`from_file` are overwritten by the fixed date and the collapsed
permission, exactly as in the source. -/
def add_file (execBit : Bool) (srcMtime : Nat × Nat × Nat × Nat × Nat × Nat)
    (srcMode : Nat) (in_zip_path : String) (data : List Nat) : ZipEntry :=
  let permission : Nat := if execBit then 0o555 else 0o444
  let zi0 : ZipEntry :=
    { filename := in_zip_path, date_time := srcMtime,
      extAttrib := (srcMode % 65536) <<< 16, content := [] }
  let zi1 : ZipEntry := { zi0 with date_time := (2020, 1, 1, 0, 0, 0) }
  let zi2 : ZipEntry := { zi1 with extAttrib := (S_IFREG ||| permission) <<< 16 }
  { zi2 with content := data }

/-- Errors `create_zip` can raise: the unguarded `open` (or the later
`ZipInfo.from_file`) on a missing manifest, and a manifest that
`yaml.load`/the `conf["module"]` accesses reject. -/
inductive ZipError where
  | fileNotFound (folder path : String)
  | parseFailed (folder path : String)
deriving DecidableEq

/-- The mutable state threaded through `create_zip`: the filesystem (the
source never writes to it), the temp-file directory used by
`tempfile.NamedTemporaryFile` as an association list from generated
names to bytes, a counter feeding the generated names, and the entries
written to the in-memory zip so far. -/
structure ZState where
  fs : FS
  tmp : List (String × List Nat)
  counter : Nat
  entries : List ZipEntry

/-- Reading a temp file back by name (`open(new_module_path, "rb")`). -/
def lookupTmp : List (String × List Nat) → String → Option (List Nat)
  | [], _ => none
  | (n, c) :: rest, name => if n = name then some c else lookupTmp rest name

/-- `os.unlink` on a temp file name. -/
def unlinkTmp : List (String × List Nat) → String → List (String × List Nat)
  | [], _ => []
  | (n, c) :: rest, name => if n = name then rest else (n, c) :: unlinkTmp rest name

/-- `generate_versioned_conf(folder, path, version)` (source lines
45-52): open the on-disk manifest (raising if it is missing), parse it,
rewrite `conf["module"]["version"]`, dump the result to a fresh
`NamedTemporaryFile` and return that file's name. -/
def generate_versioned_conf (ym : YamlModel) (st : ZState) (folder path version : String) :
    Except ZipError (String × ZState) :=
  match st.fs folder path with
  | none => .error (.fileNotFound folder path)
  | some fi =>
    match ym.parse fi.content with
    | none => .error (.parseFailed folder path)
    | some conf =>
      let name := "pytmp" ++ toString st.counter
      .ok (name, { st with tmp := (name, ym.dump { conf with version := version }) :: st.tmp,
                           counter := st.counter + 1 })

/-- `elif os.path.isfile(path): add_file(zip_file, path, path)`
(source lines 65-66): a listed path that is no longer a regular file is
skipped silently. -/
def zipNormal (folder path : String) (st : ZState) : Except ZipError ZState :=
  match st.fs folder path with
  | none => .ok st
  | some fi =>
    .ok { st with entries := st.entries ++ [add_file fi.exec fi.mtime fi.mode path fi.content] }

/-- The body of the inner loop of `create_zip` (source lines 60-66): the
special manifest-rewriting branch guarded by
`version is not None and folder == "." and path == "module.yml"`,
otherwise the guarded `add_file`.  In the special branch `add_file`
reads the temp copy's bytes (temp files are created `0600`, so its
executable bit is false), stats the on-disk manifest via
`ZipInfo.from_file(in_zip_path)`, and the temp file is unlinked after
being archived. -/
def zipPath (ym : YamlModel) (version : Option String) (folder path : String) (st : ZState) :
    Except ZipError ZState :=
  match version with
  | some v =>
    if folder = "." ∧ path = "module.yml" then
      match generate_versioned_conf ym st folder path v with
      | .error e => .error e
      | .ok (name, st1) =>
        match st1.fs folder path with
        | none => .error (.fileNotFound folder path)
        | some fi =>
          let data := (lookupTmp st1.tmp name).getD []
          let entry := add_file false fi.mtime fi.mode path data
          .ok { st1 with tmp := unlinkTmp st1.tmp name, entries := st1.entries ++ [entry] }
    else zipNormal folder path st
  | none => zipNormal folder path st

/-- `for path in files` (inner loop of `create_zip`). -/
def zipPaths (ym : YamlModel) (version : Option String) (folder : String) :
    List String → ZState → Except ZipError ZState
  | [], st => .ok st
  | p :: ps, st =>
    match zipPath ym version folder p st with
    | .error e => .error e
    | .ok st' => zipPaths ym version folder ps st'

/-- `for folder, files in files` (outer loop of `create_zip`), each pair
processed under `pushd(folder)`. -/
def zipFolders (ym : YamlModel) (version : Option String) :
    List (String × List String) → ZState → Except ZipError ZState
  | [], st => .ok st
  | pr :: rest, st =>
    match zipPaths ym version pr.1 pr.2 st with
    | .error e => .error e
    | .ok st' => zipFolders ym version rest st'

/-- `create_zip(files, version=None)` (source lines 55-68), returning
the whole final state (used to state frame properties about the
filesystem). -/
def create_zip_run (ym : YamlModel) (fs : FS) (files : List (String × List String))
    (version : Option String) : Except ZipError ZState :=
  zipFolders ym version files { fs := fs, tmp := [], counter := 0, entries := [] }

/-- `create_zip` observed as the produced archive: the ordered entry
list of the zip written to the returned `BytesIO`. -/
def create_zip (ym : YamlModel) (fs : FS) (files : List (String × List String))
    (version : Option String) : Except ZipError (List ZipEntry) :=
  (create_zip_run ym fs files version).map (·.entries)

/-! ### String ordering

Python's `sorted` compares strings lexicographically by code point.  The
comparison is embedded as a structurally recursive boolean so that every
definition below evaluates inside the kernel. -/

/-- The code point of a character. -/
def charNat (c : Char) : Nat := c.val.toNat

/-- Lexicographic strict order on char lists by code point. -/
def lexLtb : List Char → List Char → Bool
  | _, [] => false
  | [], _ :: _ => true
  | a :: as, b :: bs =>
    if charNat a < charNat b then true
    else if charNat b < charNat a then false
    else lexLtb as bs

/-- Python's `<` on strings. -/
def strLt (a b : String) : Bool := lexLtb a.data b.data

/-- `strLt` as a relation (strict lexicographic order on strings). -/
def sLt (a b : String) : Prop := strLt a b = true

/-- One insertion step of a stable insertion sort with Python's string
order (`sorted` on a list of strings). -/
def insStr (x : String) : List String → List String
  | [] => [x]
  | y :: ys => if strLt y x then y :: insStr x ys else x :: y :: ys

/-- `sorted(...)` on a list of strings (duplicates kept; on lists with
unique elements any correct sort has this value, so stability is
irrelevant). -/
def sortStrings (l : List String) : List String := l.foldr insStr []

/-- One insertion step for `sorted(list(set(...)))`: insert dropping
duplicates into a strictly sorted list. -/
def insDedup (x : String) : List String → List String
  | [] => [x]
  | y :: ys =>
    if strLt x y then x :: y :: ys
    else if x = y then y :: ys
    else y :: insDedup x ys

/-- `sorted(list(set(l)))`: the strictly increasing enumeration of the
elements of `l` — the unique strictly sorted list with the same
members. -/
def sortedDedup (l : List String) : List String := l.foldr insDedup []

/-! ### The file collector (`collect_files`, source lines 109-127) -/

/-- A Python insertion-ordered dict from folder names to file lists. -/
abbrev SDict : Type := List (String × List String)

/-- `d.get(k)` / `d[k]`. -/
def dGet : SDict → String → Option (List String)
  | [], _ => none
  | (k', v) :: rest, k => if k' = k then some v else dGet rest k

/-- `d.setdefault(k, []).extend(fs)`: extend in place when the key is
present, otherwise append a new key at the end. -/
def dExtend : SDict → String → List String → SDict
  | [], k, fs => [(k, fs)]
  | (k', v) :: rest, k, fs =>
    if k' = k then (k', v ++ fs) :: rest else (k', v) :: dExtend rest k fs

/-- `d[k] = v`: overwrite in place when the key is present, otherwise
append a new key at the end. -/
def dSet : SDict → String → List String → SDict
  | [], k, v => [(k, v)]
  | (k', v') :: rest, k, v =>
    if k' = k then (k', v) :: rest else (k', v') :: dSet rest k v

/-- The key list of a dict, in insertion order. -/
def dKeys (d : SDict) : List String := d.map (·.1)

/-- One insertion step of `sorted(d.items())`.  Python compares the
(key, value) tuples, but every dict here has unique keys, so the
comparison never reaches the values and sorting by key alone
coincides with it. -/
def insPair (p : String × List String) : SDict → SDict
  | [] => [p]
  | q :: qs => if strLt q.1 p.1 then q :: insPair p qs else p :: q :: qs

/-- `sorted(d.items())` for the dicts of `collect_files`. -/
def sortPairs (d : SDict) : SDict := d.foldr insPair []

/-- One `module.yml` artifact group, with the defaults the source
applies via `.get`: `artifact_item.get("folder", ".")`,
`.get("pattern", ["*"])`, `.get("recursive", False)`,
`.get("include_in_md5", False)`. -/
structure ArtifactItem where
  folder : String := "."
  pattern : List String := ["*"]
  recursive : Bool := false
  include_in_md5 : Bool := false
deriving DecidableEq

/-- The glob oracle: `glob.glob(pattern, recursive=recursive)` run with
the working directory at `folder`, in the (unspecified) order glob
returns matches. -/
def GlobFn : Type := String → String → Bool → List String

/-- The files matched for one folder across a group's pattern list, in
loop order: each pattern contributes
`sorted(glob.glob(pattern, recursive=recursive))`. -/
def patFiles (g : GlobFn) (folder : String) (recursive : Bool) : List String → List String
  | [] => []
  | pat :: pats => sortStrings (g folder pat recursive) ++ patFiles g folder recursive pats

/-- All files one artifact group accumulates in source order. -/
def matchedFiles (g : GlobFn) (it : ArtifactItem) : List String :=
  patFiles g it.folder it.recursive it.pattern

/-- The pattern loop of `collect_files` (source lines 115-124): for each
pattern, extend `full[folder]`, and also `md5[folder]` when
`include_in_md5` is set. -/
def collectPats (g : GlobFn) (folder : String) (recursive inc : Bool) :
    List String → SDict → SDict → SDict × SDict
  | [], full, md5 => (full, md5)
  | pat :: pats, full, md5 =>
    let files := sortStrings (g folder pat recursive)
    collectPats g folder recursive inc pats (dExtend full folder files)
      (if inc then dExtend md5 folder files else md5)

/-- The artifact-group loop of `collect_files` (source lines 112-126):
run the pattern loop, then re-sort-and-deduplicate this folder's entry
in both dicts (`full[folder] = sorted(list(set(full.get(folder, []))))`
and likewise for `md5`, which therefore gains a — possibly empty — entry
for every group's folder). -/
def collectItems (g : GlobFn) : List ArtifactItem → SDict → SDict → SDict × SDict
  | [], full, md5 => (full, md5)
  | it :: rest, full, md5 =>
    let p := collectPats g it.folder it.recursive it.include_in_md5 it.pattern full md5
    collectItems g rest
      (dSet p.1 it.folder (sortedDedup ((dGet p.1 it.folder).getD [])))
      (dSet p.2 it.folder (sortedDedup ((dGet p.2 it.folder).getD [])))

/-- `collect_files(artifacts)` (source lines 109-127): returns
`(sorted(full.items()), sorted(md5.items()))`. -/
def collect_files (g : GlobFn) (artifacts : List ArtifactItem) : SDict × SDict :=
  let p := collectItems g artifacts [] []
  (sortPairs p.1, sortPairs p.2)

/-- Specification-side closed form used in the lemmas below: all files
accumulated into `full[k]`, in source order, across the groups whose
folder is `k`. -/
def itemsFiles (g : GlobFn) (k : String) : List ArtifactItem → List String
  | [] => []
  | it :: rest => (if it.folder = k then matchedFiles g it else []) ++ itemsFiles g k rest

/-- Closed form of the files accumulated into `md5[k]`: only groups with
`include_in_md5` contribute. -/
def itemsFilesMd5 (g : GlobFn) (k : String) : List ArtifactItem → List String
  | [] => []
  | it :: rest =>
    (if it.folder = k ∧ it.include_in_md5 then matchedFiles g it else []) ++ itemsFilesMd5 g k rest

/-- The final value of `full[k]`. -/
def fullSpec (g : GlobFn) (arts : List ArtifactItem) (k : String) : List String :=
  sortedDedup (itemsFiles g k arts)

/-- The final value of `md5[k]`. -/
def md5Spec (g : GlobFn) (arts : List ArtifactItem) (k : String) : List String :=
  sortedDedup (itemsFilesMd5 g k arts)

/-! ### The fingerprinter (`calc_md5`, source lines 71-74) -/

/-- `calc_md5(md5_files)`: build the hash-only archive with no version
override and digest its serialized bytes.  `digest` is the (injective
up to md5 collisions, deterministic) composition of the zip container
serialization with `hashlib.md5(...).hexdigest()`, a function of the
ordered entry list. -/
def calc_md5 (ym : YamlModel) (digest : List ZipEntry → String) (fs : FS)
    (md5_files : List (String × List String)) : Except ZipError String :=
  (create_zip ym fs md5_files none).map digest

/-! ### Version strings and object-store keys -/

/-- Does `pat` occur at the head of `l`? -/
def startsWithL : List Char → List Char → Bool
  | [], _ => true
  | _ :: _, [] => false
  | a :: as, b :: bs => a == b && startsWithL as bs

/-- Helper for the substring test: does `pat` occur anywhere in `l`? -/
def hasSubL (pat : List Char) : List Char → Bool
  | [] => startsWithL pat []
  | a :: rest => startsWithL pat (a :: rest) || hasSubL pat rest

/-- Python's `pat in s` substring containment on strings (the
`"dev" in version` test). -/
def hasSub (s pat : String) : Bool := hasSubL pat.data s.data

/-- The object-store key an archive is written to / fetched from: the
`dev/` sub-prefix exactly when the version string contains `"dev"`
(source lines 147-151 and 250-254). -/
def moduleKey (module_name version : String) : String :=
  if hasSub version "dev" then
    "modules/dev/" ++ module_name ++ "-" ++ version ++ ".zip"
  else
    "modules/" ++ module_name ++ "-" ++ version ++ ".zip"

/-! ### The object store (`get_object` / `get_latest_details`,
source lines 77-106) -/

/-- What `boto3`'s `get_object` does for a (bucket, key) pair:
a successful response with a body, a raised exception carrying a
provider error code in `exc.response["Error"]["Code"]` (the empty
string models a missing or falsy code, which the source re-raises), a
raised exception with no `response` attribute at all, or
`NoCredentialsError`. -/
inductive StoreResp where
  | ok (body : List Nat)
  | raiseWithCode (code : String)
  | raiseNoResponse
  | noCreds
deriving DecidableEq

/-- The object store as a map from (bucket, key) to behavior. -/
def Store : Type := String → String → StoreResp

/-- The observable result of `get_object` (source lines 77-96). -/
inductive GetRes where
  | found (body : List Nat)
  | notFound
  | fatal (exitCode : Nat) (reported : Option String)
  | raised
deriving DecidableEq

/-- `get_object(bucket, key)`: return the response; on
`NoCredentialsError` exit 1; on an exception whose provider error code
is `"NoSuchKey"` return `None`; on an exception with any other truthy
error code report it and exit 1; otherwise re-raise. -/
def get_object (store : Store) (bucket key : String) : GetRes :=
  match store bucket key with
  | .ok body => .found body
  | .noCreds => .fatal 1 none
  | .raiseWithCode code =>
    if code = "NoSuchKey" then .notFound
    else if code = "" then .raised
    else .fatal 1 (some code)
  | .raiseNoResponse => .raised

/-- The observable result of `get_latest_details`. -/
inductive LatestRes where
  | ok (version md5sum : Option String)
  | fatal (exitCode : Nat) (reported : Option String)
  | raised
deriving DecidableEq

/-- The key of the Latest Pointer Document. -/
def latestKey (module_name : String) : String :=
  "modules/" ++ module_name ++ "-latest.yml"

/-- `get_latest_details(bucket, module_name)` (source lines 99-106):
fetch `modules/<name>-latest.yml`; `(None, None)` when absent,
otherwise the `version` and `md5sum` fields of the document.
`parseLatest` models `yaml.load` plus the two key accesses; `none`
means the Python code would raise. -/
def get_latest_details (parseLatest : List Nat → Option (String × String))
    (store : Store) (bucket module_name : String) : LatestRes :=
  match get_object store bucket (latestKey module_name) with
  | .found body =>
    match parseLatest body with
    | some (v, m) => .ok (some v) (some m)
    | none => .raised
  | .notFound => .ok none none
  | .fatal c r => .fatal c r
  | .raised => .raised

/-! ### The publish compare-and-upload logic (source lines 236-265) -/

/-- What one `publish` invocation does after `version`, `new_md5sum`,
`latest_version` and `latest_md5sum` have been computed: the exit code
taken at a terminal `sys.exit` (`none` when the code falls through to
the upload and finishes normally), the key the archive was uploaded to
(if any), and the (version, md5sum) pair written to the Latest Pointer
Document (if any). -/
structure PublishOutcome where
  exitCode : Option Nat
  uploadedKey : Option String
  latestWrite : Option (String × String)
deriving DecidableEq

/-- The compare / upload tail of `publish` (source lines 236-265).
`latest_version`/`latest_md5sum` are `none` when no Latest Pointer
Document exists; Python's `==` between a string and `None` is false. -/
def publish (module_name version new_md5sum : String)
    (latest_version latest_md5sum : Option String) : PublishOutcome :=
  if latest_version = some version ∧ latest_md5sum = some new_md5sum then
    { exitCode := some 0, uploadedKey := none, latestWrite := none }
  else if latest_version = some version ∧ latest_md5sum ≠ some new_md5sum then
    { exitCode := some 1, uploadedKey := none, latestWrite := none }
  else if latest_md5sum = some new_md5sum then
    { exitCode := some 0, uploadedKey := none, latestWrite := none }
  else
    { exitCode := none,
      uploadedKey := some (moduleKey module_name version),
      latestWrite :=
        if hasSub version "dev" then none else some (version, new_md5sum) }

/-! ### The install workflow (`install_module`, source lines 130-169) -/

/-- The local filesystem as seen by `install_module`: which paths
exist.  `rmtree` on a path removes it (the children of a removed
directory are not modelled separately). -/
def LocalFS : Type := String → Bool

/-- `shutil.rmtree(p)`. -/
def removeLocal (fs : LocalFS) (p : String) : LocalFS :=
  fun q => if q = p then false else fs q

/-- `os.makedirs(p)` followed by `extractall(p)`. -/
def addLocal (fs : LocalFS) (p : String) : LocalFS :=
  fun q => if q = p then true else fs q

/-- The externally visible steps of one `install_module` call, in
order. -/
inductive Action where
  | removeTree (path : String)
  | fetchLatest (name : String)
  | fetchObject (key : String)
  | makedirs (path : String)
  | extractAll (path : String)
deriving DecidableEq

/-- How one `install_module` call ends. -/
inductive InstallOutcome where
  | fatalError (exitCode : Nat)
  | raised
  | skippedNoVersion
  | skippedNotFound (version : String)
  | installed (version : String)
deriving DecidableEq

/-- The result of one `install_module` call: its step trace, how it
ended, and the final local filesystem. -/
structure InstallResult where
  trace : List Action
  outcome : InstallOutcome
  fs : LocalFS

/-- The download-and-extract tail of `install_module` (source lines
147-169), reached with a concrete version string.  `unzipOk` models
whether `os.makedirs` + `extractall` succeed. -/
def installFetch (store : Store) (unzipOk : Bool) (fs : LocalFS) (tr : List Action)
    (path bucket module_name version : String) : InstallResult :=
  let key := moduleKey module_name version
  match get_object store bucket key with
  | .found _ =>
    if unzipOk then
      { trace := tr ++ [.fetchObject key, .makedirs path, .extractAll path],
        outcome := .installed version, fs := addLocal fs path }
    else
      { trace := tr ++ [.fetchObject key], outcome := .fatalError 1, fs := fs }
  | .notFound =>
    { trace := tr ++ [.fetchObject key], outcome := .skippedNotFound version, fs := fs }
  | .fatal c _ =>
    { trace := tr ++ [.fetchObject key], outcome := .fatalError c, fs := fs }
  | .raised =>
    { trace := tr ++ [.fetchObject key], outcome := .raised, fs := fs }

/-- Resolution through the Latest Pointer Document (source line 140
with the `version is None` check on lines 141-146): a still-absent
version logs and returns without error. -/
def installLatest (parseLatest : List Nat → Option (String × String)) (store : Store)
    (unzipOk : Bool) (fs : LocalFS) (tr : List Action)
    (path bucket module_name : String) : InstallResult :=
  match get_latest_details parseLatest store bucket module_name with
  | .ok (some v) _ =>
    installFetch store unzipOk fs (tr ++ [.fetchLatest module_name]) path bucket module_name v
  | .ok none _ =>
    { trace := tr ++ [.fetchLatest module_name], outcome := .skippedNoVersion, fs := fs }
  | .fatal c _ =>
    { trace := tr ++ [.fetchLatest module_name], outcome := .fatalError c, fs := fs }
  | .raised =>
    { trace := tr ++ [.fetchLatest module_name], outcome := .raised, fs := fs }

/-- The version-resolution middle of `install_module` (source lines
139-146): `None` or the literal `"latest"` resolve through the Latest
Pointer Document, anything else is used as given. -/
def installResolve (parseLatest : List Nat → Option (String × String)) (store : Store)
    (unzipOk : Bool) (fs : LocalFS) (tr : List Action)
    (path bucket module_name : String) (version : Option String) : InstallResult :=
  match version with
  | none => installLatest parseLatest store unzipOk fs tr path bucket module_name
  | some v =>
    if v = "latest" then installLatest parseLatest store unzipOk fs tr path bucket module_name
    else installFetch store unzipOk fs tr path bucket module_name v

/-- `install_module(folder, bucket, module_name, version=None)` (source
lines 130-169).  `rmOk` models whether `shutil.rmtree` succeeds when it
runs.  The pre-existing directory, when present, is removed before any
version resolution or store access. -/
def install_module (parseLatest : List Nat → Option (String × String)) (store : Store)
    (rmOk unzipOk : Bool) (fs : LocalFS) (folder bucket module_name : String)
    (version : Option String) : InstallResult :=
  let path := folder ++ "/" ++ module_name
  if fs path then
    if rmOk then
      installResolve parseLatest store unzipOk (removeLocal fs path) [.removeTree path]
        path bucket module_name version
    else
      { trace := [], outcome := .fatalError 1, fs := fs }
  else
    installResolve parseLatest store unzipOk fs [] path bucket module_name version

/-! ### Auxiliary observations used by the claims -/

/-- The entries `create_zip` produces when the manifest-rewriting branch
is never taken: exactly the listed files that still exist, in listed
order. -/
def survPaths (fs : FS) (folder : String) : List String → List ZipEntry
  | [] => []
  | p :: ps =>
    match fs folder p with
    | some fi => add_file fi.exec fi.mtime fi.mode p fi.content :: survPaths fs folder ps
    | none => survPaths fs folder ps

/-- `survPaths` over all (folder, files) pairs. -/
def surviving (fs : FS) : List (String × List String) → List ZipEntry
  | [] => []
  | pr :: rest => survPaths fs pr.1 pr.2 ++ surviving fs rest

/-- Two filesystems agree on a listed file when the file is missing in
both, or present in both with the same bytes and the same executable
bit (its other permission bits, timestamps and everything else may
differ). -/
def fsAgree (fs1 fs2 : FS) (folder path : String) : Prop :=
  match fs1 folder path, fs2 folder path with
  | none, none => True
  | some a, some b => a.content = b.content ∧ a.exec = b.exec
  | _, _ => False

/-- Relation between two `create_zip` runs over agreeing filesystems:
they fail identically or succeed with identical archives, temp state
and counters, each leaving its own filesystem in place. -/
def zrel (fs1 fs2 : FS) : Except ZipError ZState → Except ZipError ZState → Prop
  | .error e1, .error e2 => e1 = e2
  | .ok a, .ok b =>
    a.fs = fs1 ∧ b.fs = fs2 ∧ a.tmp = b.tmp ∧ a.counter = b.counter ∧ a.entries = b.entries
  | _, _ => False

/-! ### Concrete instances used to evaluate the theorems below -/

/-- A concrete YAML model: every document parses to the same manifest,
and dumping writes the version's code points. -/
def ymW : YamlModel :=
  { parse := fun _ => some { version := "0", rest := [("name", "m")] },
    dump := fun c => c.version.data.map charNat }

/-- A YAML model on which every parse fails. -/
def ymN : YamlModel := { parse := fun _ => none, dump := fun _ => [] }

/-- The manifest `ymW` parses everything to. -/
def confW : Conf := { version := "0", rest := [("name", "m")] }

/-- A file with the executable bit set. -/
def fiW1 : FileInfo :=
  { content := [104, 105], exec := true, mtime := (1999, 2, 3, 4, 5, 6), mode := 0o700 }

/-- The same bytes and executable bit as `fiW1` with different stat
metadata. -/
def fiW2 : FileInfo :=
  { content := [104, 105], exec := true, mtime := (2021, 7, 8, 9, 10, 11), mode := 0o755 }

/-- A filesystem holding only `./a`. -/
def fsW1 : FS := fun f p => if f = "." ∧ p = "a" then some fiW1 else none

/-- A filesystem agreeing with `fsW1` on `./a` up to content and
executable bit, with different metadata and an extra unlisted file. -/
def fsW2 : FS := fun f p =>
  if f = "." ∧ p = "a" then some fiW2
  else if f = "." ∧ p = "b" then some fiW1 else none

/-- A filesystem holding only `./module.yml`. -/
def fsW8 : FS := fun f p => if f = "." ∧ p = "module.yml" then some fiW1 else none

/-- The empty filesystem. -/
def fsN : FS := fun _ _ => none

/-- A concrete glob oracle over the root folder. -/
def gW : GlobFn := fun folder pat _ =>
  if folder = "." ∧ pat = "*" then ["b.txt", "a.txt"]
  else if folder = "." ∧ pat = "a*" then ["a.txt"] else []

/-- A hash-contributing artifact group. -/
def itW1 : ArtifactItem :=
  { folder := ".", pattern := ["*"], recursive := false, include_in_md5 := true }

/-- A non-hash artifact group over the same folder. -/
def itW2 : ArtifactItem :=
  { folder := ".", pattern := ["a*"], recursive := false, include_in_md5 := false }

/-- A concrete digest function (any deterministic function of the entry
list will do for the statements below). -/
def digestW : List ZipEntry → String := fun es => toString es.length

/-- A concrete Latest Pointer Document reader. -/
def plW : List Nat → Option (String × String) := fun _ => some ("1.0", "h")

/-- A store whose every get raises with code `NoSuchKey`. -/
def stNF : Store := fun _ _ => .raiseWithCode "NoSuchKey"

/-- A store whose every get raises with code `AccessDenied`. -/
def stErr : Store := fun _ _ => .raiseWithCode "AccessDenied"

/-- A store on which every get hits `NoCredentialsError`. -/
def stNC : Store := fun _ _ => .noCreds

/-- A local filesystem containing only `modules/m`. -/
def lfsW : LocalFS := fun p => p == "modules/m"

/-- The single entry `create_zip ymW fsW1 [(".", ["a"])] none`
produces. -/
def entW : ZipEntry := add_file true (1999, 2, 3, 4, 5, 6) 0o700 "a" [104, 105]

/-- The final state of
`create_zip_run ymW fsW8 [(".", ["module.yml"])] (some "2.0")`. -/
def stC8 : ZState :=
  { fs := fsW8, tmp := [], counter := 1,
    entries := [add_file false (1999, 2, 3, 4, 5, 6) 0o700 "module.yml"
      (ymW.dump { confW with version := "2.0" })] }

/-! ## Lemmas: the string order -/

theorem charNat_inj {a b : Char} (h : charNat a = charNat b) : a = b :=
  Char.ext (UInt32.ext h)

theorem lexLtb_irrefl (l : List Char) : lexLtb l l = false := by
  induction l with
  | nil => rfl
  | cons a as ih => simp [lexLtb, ih]

theorem lexLtb_asymm : ∀ {l₁ l₂ : List Char}, lexLtb l₁ l₂ = true → lexLtb l₂ l₁ = false := by
  intro l₁
  induction l₁ with
  | nil =>
    intro l₂ h
    cases l₂ with
    | nil => simp [lexLtb] at h
    | cons b bs => simp [lexLtb]
  | cons a as ih =>
    intro l₂ h
    cases l₂ with
    | nil => simp [lexLtb] at h
    | cons b bs =>
      simp only [lexLtb] at h ⊢
      rcases Nat.lt_trichotomy (charNat a) (charNat b) with hlt | heq | hgt
      · rw [if_neg (Nat.lt_asymm hlt), if_pos hlt]
      · rw [heq] at h ⊢
        rw [if_neg (lt_irrefl _)] at h ⊢
        rw [if_neg (lt_irrefl _)] at h ⊢
        exact ih h
      · rw [if_neg (Nat.lt_asymm hgt), if_pos hgt] at h
        exact absurd h (by simp)

theorem lexLtb_trans : ∀ {l₁ l₂ l₃ : List Char},
    lexLtb l₁ l₂ = true → lexLtb l₂ l₃ = true → lexLtb l₁ l₃ = true := by
  intro l₁
  induction l₁ with
  | nil =>
    intro l₂ l₃ h12 h23
    cases l₂ with
    | nil => simp [lexLtb] at h12
    | cons b bs =>
      cases l₃ with
      | nil => simp [lexLtb] at h23
      | cons c cs => simp [lexLtb]
  | cons a as ih =>
    intro l₂ l₃ h12 h23
    cases l₂ with
    | nil => simp [lexLtb] at h12
    | cons b bs =>
      cases l₃ with
      | nil => simp [lexLtb] at h23
      | cons c cs =>
        simp only [lexLtb] at h12 h23 ⊢
        rcases Nat.lt_trichotomy (charNat a) (charNat b) with hab | hab | hab
        · rcases Nat.lt_trichotomy (charNat b) (charNat c) with hbc | hbc | hbc
          · rw [if_pos (Nat.lt_trans hab hbc)]
          · rw [if_pos (hbc ▸ hab)]
          · rw [if_neg (Nat.lt_asymm hbc), if_pos hbc] at h23
            exact absurd h23 (by simp)
        · rcases Nat.lt_trichotomy (charNat b) (charNat c) with hbc | hbc | hbc
          · rw [if_pos (show charNat a < charNat c by omega)]
          · rw [if_neg (show ¬ charNat a < charNat b by omega),
              if_neg (show ¬ charNat b < charNat a by omega)] at h12
            rw [if_neg (show ¬ charNat b < charNat c by omega),
              if_neg (show ¬ charNat c < charNat b by omega)] at h23
            rw [if_neg (show ¬ charNat a < charNat c by omega),
              if_neg (show ¬ charNat c < charNat a by omega)]
            exact ih h12 h23
          · rw [if_neg (Nat.lt_asymm hbc), if_pos hbc] at h23
            exact absurd h23 (by simp)
        · rw [if_neg (Nat.lt_asymm hab), if_pos hab] at h12
          exact absurd h12 (by simp)

theorem lexLtb_eq_of_not : ∀ {l₁ l₂ : List Char},
    lexLtb l₁ l₂ = false → lexLtb l₂ l₁ = false → l₁ = l₂ := by
  intro l₁
  induction l₁ with
  | nil =>
    intro l₂ h12 _
    cases l₂ with
    | nil => rfl
    | cons b bs => simp [lexLtb] at h12
  | cons a as ih =>
    intro l₂ h12 h21
    cases l₂ with
    | nil => simp [lexLtb] at h21
    | cons b bs =>
      simp only [lexLtb] at h12 h21
      rcases Nat.lt_trichotomy (charNat a) (charNat b) with hab | hab | hab
      · rw [if_pos hab] at h12
        exact absurd h12 (by simp)
      · rw [hab] at h12 h21
        rw [if_neg (lt_irrefl _), if_neg (lt_irrefl _)] at h12 h21
        rw [charNat_inj hab, ih h12 h21]
      · rw [if_pos hab] at h21
        exact absurd h21 (by simp)

theorem sLt_asymm {a b : String} (h : sLt a b) : ¬ sLt b a := by
  intro h'
  have := lexLtb_asymm (show lexLtb a.data b.data = true from h)
  rw [sLt, strLt] at h'
  rw [this] at h'
  exact absurd h' (by simp)

theorem sLt_trans {a b c : String} (h1 : sLt a b) (h2 : sLt b c) : sLt a c :=
  lexLtb_trans h1 h2

theorem eq_of_not_sLt {a b : String} (h1 : ¬ sLt a b) (h2 : ¬ sLt b a) : a = b := by
  apply String.ext
  apply lexLtb_eq_of_not
  · cases h : strLt a b
    · exact h
    · exact absurd h h1
  · cases h : strLt b a
    · exact h
    · exact absurd h h2

theorem sLt_of_not {x y : String} (h : ¬ sLt x y) (hne : x ≠ y) : sLt y x := by
  cases hyx : strLt y x
  · exact absurd (eq_of_not_sLt h (by simp [sLt, hyx])) hne
  · exact hyx

/-! ## Lemmas: `sortedDedup` -/

theorem mem_insDedup {a x : String} : ∀ {l : List String}, a ∈ insDedup x l ↔ a = x ∨ a ∈ l := by
  intro l
  induction l with
  | nil => simp [insDedup]
  | cons y ys ih =>
    by_cases h1 : strLt x y
    · simp [insDedup, h1]
    · by_cases h2 : x = y
      · subst h2
        simp [insDedup, h1]
      · simp [insDedup, h1, h2, ih]
        tauto

theorem pairwise_insDedup {x : String} :
    ∀ {l : List String}, l.Pairwise sLt → (insDedup x l).Pairwise sLt := by
  intro l
  induction l with
  | nil => simp [insDedup, List.Pairwise]
  | cons y ys ih =>
    intro h
    rw [List.pairwise_cons] at h
    obtain ⟨hy, hys⟩ := h
    simp only [insDedup]
    by_cases h1 : strLt x y
    · rw [if_pos h1]
      rw [List.pairwise_cons]
      refine ⟨?_, List.pairwise_cons.mpr ⟨hy, hys⟩⟩
      intro z hz
      rcases List.mem_cons.mp hz with rfl | hz
      · exact h1
      · exact sLt_trans h1 (hy z hz)
    · rw [if_neg h1]
      by_cases h2 : x = y
      · rw [if_pos h2]
        exact List.pairwise_cons.mpr ⟨hy, hys⟩
      · rw [if_neg h2]
        rw [List.pairwise_cons]
        refine ⟨?_, ih hys⟩
        intro z hz
        rcases mem_insDedup.mp hz with rfl | hz
        · exact sLt_of_not h1 h2
        · exact hy z hz

theorem pairwise_sortedDedup (l : List String) : (sortedDedup l).Pairwise sLt := by
  induction l with
  | nil => simp [sortedDedup]
  | cons x xs ih => exact pairwise_insDedup ih

theorem mem_sortedDedup {a : String} : ∀ {l : List String}, a ∈ sortedDedup l ↔ a ∈ l := by
  intro l
  induction l with
  | nil => simp [sortedDedup]
  | cons x xs ih =>
    show a ∈ insDedup x (sortedDedup xs) ↔ _
    rw [mem_insDedup, ih, List.mem_cons]

/-- Two strictly sorted lists (under any asymmetric relation) with the
same members are equal. -/
theorem strictSorted_eq_of_mem_iff {α : Type} {r : α → α → Prop}
    (hasymm : ∀ a b, r a b → ¬ r b a) :
    ∀ {l₁ l₂ : List α}, l₁.Pairwise r → l₂.Pairwise r →
      (∀ x, x ∈ l₁ ↔ x ∈ l₂) → l₁ = l₂ := by
  intro l₁
  induction l₁ with
  | nil =>
    intro l₂ _ _ hm
    cases l₂ with
    | nil => rfl
    | cons b t => exact absurd ((hm b).mpr (List.mem_cons_self b t)) (List.not_mem_nil b)
  | cons a t ih =>
    intro l₂ h₁ h₂ hm
    cases l₂ with
    | nil => exact absurd ((hm a).mp (List.mem_cons_self a t)) (List.not_mem_nil a)
    | cons b t₂ =>
      rw [List.pairwise_cons] at h₁ h₂
      have hab : a = b := by
        rcases List.mem_cons.mp ((hm a).mp (List.mem_cons_self a t)) with h | h
        · exact h
        · rcases List.mem_cons.mp ((hm b).mpr (List.mem_cons_self b t₂)) with h' | h'
          · exact h'.symm
          · exact absurd (h₁.1 b h') (hasymm _ _ (h₂.1 a h))
      subst hab
      have htails : ∀ x, x ∈ t ↔ x ∈ t₂ := by
        intro x
        constructor
        · intro hx
          rcases List.mem_cons.mp ((hm x).mp (List.mem_cons.mpr (Or.inr hx))) with h | h
          · exact absurd (h₁.1 x hx) (h ▸ fun hr => hasymm _ _ hr hr)
          · exact h
        · intro hx
          rcases List.mem_cons.mp ((hm x).mpr (List.mem_cons.mpr (Or.inr hx))) with h | h
          · exact absurd (h₂.1 x hx) (h ▸ fun hr => hasymm _ _ hr hr)
          · exact h
      rw [ih h₁.2 h₂.2 htails]

theorem sortedDedup_congr {l l' : List String} (h : ∀ a, a ∈ l ↔ a ∈ l') :
    sortedDedup l = sortedDedup l' :=
  strictSorted_eq_of_mem_iff (fun _ _ => sLt_asymm) (pairwise_sortedDedup l)
    (pairwise_sortedDedup l') (fun x => by rw [mem_sortedDedup, mem_sortedDedup]; exact h x)

/-! ## Lemmas: the dict model -/

theorem dGet_dExtend_self (d : SDict) (k : String) (fs : List String) :
    dGet (dExtend d k fs) k = some ((dGet d k).getD [] ++ fs) := by
  induction d with
  | nil => simp [dGet, dExtend]
  | cons p rest ih =>
    obtain ⟨k', v⟩ := p
    by_cases h : k' = k
    · subst h
      simp [dGet, dExtend]
    · simp [dGet, dExtend, h, ih]

theorem dGet_dExtend_ne (d : SDict) (k : String) (fs : List String) {k' : String}
    (h : k' ≠ k) : dGet (dExtend d k fs) k' = dGet d k' := by
  induction d with
  | nil => simp [dGet, dExtend, Ne.symm h]
  | cons p rest ih =>
    obtain ⟨k0, v⟩ := p
    by_cases h0 : k0 = k
    · subst h0
      simp [dGet, dExtend, Ne.symm h]
    · simp only [dExtend, h0, if_false, dGet]
      by_cases h1 : k0 = k'
      · simp [dGet, h1]
      · simp [dGet, h1, ih]

theorem dGet_dSet_self (d : SDict) (k : String) (v : List String) :
    dGet (dSet d k v) k = some v := by
  induction d with
  | nil => simp [dGet, dSet]
  | cons p rest ih =>
    obtain ⟨k0, v0⟩ := p
    by_cases h : k0 = k
    · subst h
      simp [dGet, dSet]
    · simp [dGet, dSet, h, ih]

theorem dGet_dSet_ne (d : SDict) (k : String) (v : List String) {k' : String}
    (h : k' ≠ k) : dGet (dSet d k v) k' = dGet d k' := by
  induction d with
  | nil => simp [dGet, dSet, Ne.symm h]
  | cons p rest ih =>
    obtain ⟨k0, v0⟩ := p
    by_cases h0 : k0 = k
    · subst h0
      simp [dGet, dSet, Ne.symm h]
    · simp only [dSet, h0, if_false, dGet]
      by_cases h1 : k0 = k'
      · simp [dGet, h1]
      · simp [dGet, h1, ih]

theorem mem_dKeys_dExtend {d : SDict} {k a : String} {fs : List String} :
    a ∈ dKeys (dExtend d k fs) ↔ a ∈ dKeys d ∨ a = k := by
  induction d with
  | nil => simp [dKeys, dExtend]
  | cons p rest ih =>
    obtain ⟨k0, v0⟩ := p
    by_cases h : k0 = k
    · subst h
      simp [dExtend, dKeys]
      tauto
    · simp only [dExtend, h, if_false, dKeys, List.map_cons, List.mem_cons]
      rw [show (List.map (·.1) (dExtend rest k fs)) = dKeys (dExtend rest k fs) from rfl, ih]
      tauto

theorem mem_dKeys_dSet {d : SDict} {k a : String} {v : List String} :
    a ∈ dKeys (dSet d k v) ↔ a ∈ dKeys d ∨ a = k := by
  induction d with
  | nil => simp [dKeys, dSet]
  | cons p rest ih =>
    obtain ⟨k0, v0⟩ := p
    by_cases h : k0 = k
    · subst h
      simp [dSet, dKeys]
      tauto
    · simp only [dSet, h, if_false, dKeys, List.map_cons, List.mem_cons]
      rw [show (List.map (·.1) (dSet rest k v)) = dKeys (dSet rest k v) from rfl, ih]
      tauto

theorem nodup_dKeys_dExtend {d : SDict} {k : String} {fs : List String}
    (h : (dKeys d).Nodup) : (dKeys (dExtend d k fs)).Nodup := by
  induction d with
  | nil => simp [dKeys, dExtend]
  | cons p rest ih =>
    obtain ⟨k0, v0⟩ := p
    simp only [dKeys, List.map_cons, List.nodup_cons] at h
    by_cases hk : k0 = k
    · subst hk
      simpa [dExtend, dKeys] using h
    · simp only [dExtend, hk, if_false, dKeys, List.map_cons, List.nodup_cons]
      refine ⟨?_, ih h.2⟩
      rw [show (List.map (·.1) (dExtend rest k fs)) = dKeys (dExtend rest k fs) from rfl,
        mem_dKeys_dExtend]
      rintro (hmem | rfl)
      · exact h.1 hmem
      · exact hk rfl

theorem nodup_dKeys_dSet {d : SDict} {k : String} {v : List String}
    (h : (dKeys d).Nodup) : (dKeys (dSet d k v)).Nodup := by
  induction d with
  | nil => simp [dKeys, dSet]
  | cons p rest ih =>
    obtain ⟨k0, v0⟩ := p
    simp only [dKeys, List.map_cons, List.nodup_cons] at h
    by_cases hk : k0 = k
    · subst hk
      simpa [dSet, dKeys] using h
    · simp only [dSet, hk, if_false, dKeys, List.map_cons, List.nodup_cons]
      refine ⟨?_, ih h.2⟩
      rw [show (List.map (·.1) (dSet rest k v)) = dKeys (dSet rest k v) from rfl,
        mem_dKeys_dSet]
      rintro (hmem | rfl)
      · exact h.1 hmem
      · exact hk rfl

theorem dGet_eq_none_iff {d : SDict} {k : String} : dGet d k = none ↔ k ∉ dKeys d := by
  induction d with
  | nil => simp [dGet, dKeys]
  | cons p rest ih =>
    obtain ⟨k0, v0⟩ := p
    by_cases h : k0 = k
    · subst h
      simp [dGet, dKeys]
    · simp [dGet, dKeys, h, ih, Ne.symm h]

theorem mem_iff_dGet {d : SDict} (hn : (dKeys d).Nodup) {k : String} {v : List String} :
    (k, v) ∈ d ↔ dGet d k = some v := by
  induction d with
  | nil => simp [dGet]
  | cons p rest ih =>
    obtain ⟨k0, v0⟩ := p
    simp only [dKeys, List.map_cons, List.nodup_cons] at hn
    constructor
    · intro hmem
      rcases List.mem_cons.mp hmem with heq | hmem
      · injection heq with h1 h2
        subst h1
        subst h2
        simp [dGet]
      · have hk : k ∈ dKeys rest := List.mem_map.mpr ⟨(k, v), hmem, rfl⟩
        have hne : k0 ≠ k := fun he => hn.1 (he ▸ hk)
        simp only [dGet, hne, if_false]
        exact (ih hn.2).mp hmem
    · intro hget
      by_cases h : k0 = k
      · subst h
        simp [dGet] at hget
        subst hget
        exact List.mem_cons_self _ _
      · simp only [dGet, h, if_false] at hget
        exact List.mem_cons.mpr (Or.inr ((ih hn.2).mpr hget))

/-! ## Lemmas: `sortPairs` -/

theorem insPair_cons_lt {p r : String × List String} {rs : SDict} (h : sLt r.1 p.1) :
    insPair p (r :: rs) = r :: insPair p rs := by
  show (if strLt r.1 p.1 then r :: insPair p rs else p :: r :: rs) = r :: insPair p rs
  rw [if_pos (show strLt r.1 p.1 = true from h)]

theorem insPair_cons_ge {p r : String × List String} {rs : SDict} (h : ¬ sLt r.1 p.1) :
    insPair p (r :: rs) = p :: r :: rs := by
  show (if strLt r.1 p.1 then r :: insPair p rs else p :: r :: rs) = p :: r :: rs
  rw [if_neg (show ¬ strLt r.1 p.1 = true from h)]

theorem mem_insPair {p q : String × List String} :
    ∀ {l : SDict}, q ∈ insPair p l ↔ q = p ∨ q ∈ l := by
  intro l
  induction l with
  | nil => simp [insPair]
  | cons r rs ih =>
    by_cases h : strLt r.1 p.1
    · rw [insPair_cons_lt h, List.mem_cons, ih, List.mem_cons]
      tauto
    · rw [insPair_cons_ge h, List.mem_cons, List.mem_cons]

theorem perm_insPair (p : String × List String) :
    ∀ (l : SDict), (insPair p l).Perm (p :: l) := by
  intro l
  induction l with
  | nil => exact List.Perm.refl _
  | cons q qs ih =>
    by_cases h : strLt q.1 p.1
    · rw [insPair_cons_lt h]
      exact (ih.cons q).trans (List.Perm.swap p q qs)
    · rw [insPair_cons_ge h]

theorem perm_sortPairs (d : SDict) : (sortPairs d).Perm d := by
  induction d with
  | nil => exact List.Perm.refl _
  | cons p rest ih =>
    exact (perm_insPair p (sortPairs rest)).trans (ih.cons p)

/-- "Key of `a` not greater than key of `b`": the sort order of
`sorted(d.items())` restricted to dicts with unique keys. -/
def keyLe (a b : String × List String) : Prop := ¬ sLt b.1 a.1

theorem keyLe_trans {a b c : String × List String} (h1 : keyLe a b) (h2 : keyLe b c) :
    keyLe a c := by
  intro hc
  by_cases he : c.1 = b.1
  · exact h1 (he ▸ hc)
  · exact h1 (sLt_trans (sLt_of_not h2 he) hc)

theorem pairwise_keyLe_insPair {p : String × List String} :
    ∀ {l : SDict}, l.Pairwise keyLe → (insPair p l).Pairwise keyLe := by
  intro l
  induction l with
  | nil => simp [insPair, List.Pairwise]
  | cons q qs ih =>
    intro h
    rw [List.pairwise_cons] at h
    obtain ⟨hq, hqs⟩ := h
    by_cases hlt : strLt q.1 p.1
    · rw [insPair_cons_lt hlt, List.pairwise_cons]
      refine ⟨?_, ih hqs⟩
      intro z hz
      rcases mem_insPair.mp hz with rfl | hz
      · exact sLt_asymm hlt
      · exact hq z hz
    · rw [insPair_cons_ge hlt, List.pairwise_cons]
      refine ⟨?_, List.pairwise_cons.mpr ⟨hq, hqs⟩⟩
      intro z hz
      rcases List.mem_cons.mp hz with rfl | hz
      · exact hlt
      · exact keyLe_trans (show keyLe p q from hlt) (hq z hz)

theorem pairwise_keyLe_sortPairs (d : SDict) : (sortPairs d).Pairwise keyLe := by
  induction d with
  | nil => simp [sortPairs, List.Pairwise]
  | cons p rest ih => exact pairwise_keyLe_insPair ih

theorem pairwise_keyLt_sortPairs (d : SDict) (hn : (dKeys d).Nodup) :
    (sortPairs d).Pairwise (fun a b => sLt a.1 b.1) := by
  have hperm : (dKeys (sortPairs d)).Perm (dKeys d) := by
    unfold dKeys
    exact (perm_sortPairs d).map (·.1)
  have hnodup : (dKeys (sortPairs d)).Nodup := hperm.nodup_iff.mpr hn
  have hne : (sortPairs d).Pairwise (fun a b => a.1 ≠ b.1) := by
    have := hnodup
    rw [dKeys, List.Nodup, List.pairwise_map] at this
    exact this
  have hle := pairwise_keyLe_sortPairs d
  exact (hle.and hne).imp (fun h => sLt_of_not h.1 (fun hh => h.2 hh.symm))

theorem sortPairs_eq (d : SDict) (hn : (dKeys d).Nodup) :
    sortPairs d = (sortedDedup (dKeys d)).map (fun k => (k, (dGet d k).getD [])) := by
  refine @strictSorted_eq_of_mem_iff (String × List String)
    (fun a b => sLt a.1 b.1) (fun _ _ h => sLt_asymm h) _ _ ?_ ?_ ?_
  · exact pairwise_keyLt_sortPairs d hn
  · rw [List.pairwise_map]
    exact pairwise_sortedDedup (dKeys d)
  · intro x
    rw [(perm_sortPairs d).mem_iff]
    obtain ⟨k, v⟩ := x
    rw [mem_iff_dGet hn, List.mem_map]
    constructor
    · intro hget
      refine ⟨k, ?_, ?_⟩
      · rw [mem_sortedDedup]
        by_contra hmem
        rw [← dGet_eq_none_iff] at hmem
        rw [hmem] at hget
        exact Option.noConfusion hget
      · rw [hget]
        rfl
    · rintro ⟨k0, hk0, heq⟩
      injection heq with h1 h2
      subst h1
      subst h2
      rw [mem_sortedDedup] at hk0
      cases hget : dGet d k0 with
      | none => exact absurd (dGet_eq_none_iff.mp hget) (fun h => h hk0)
      | some v0 => rfl

/-! ## Lemmas: the collector -/

theorem collectPats_fst_ne (g : GlobFn) (f : String) (r i : Bool) {k : String} (hk : k ≠ f) :
    ∀ (pats : List String) (full md5 : SDict),
      dGet ((collectPats g f r i pats full md5).1) k = dGet full k := by
  intro pats
  induction pats with
  | nil => intro full md5; rfl
  | cons pat ps ih =>
    intro full md5
    simp only [collectPats]
    rw [ih, dGet_dExtend_ne _ _ _ hk]

theorem collectPats_fst_self (g : GlobFn) (f : String) (r i : Bool) :
    ∀ (pats : List String) (full md5 : SDict),
      (dGet ((collectPats g f r i pats full md5).1) f).getD [] =
        (dGet full f).getD [] ++ patFiles g f r pats := by
  intro pats
  induction pats with
  | nil =>
    intro full md5
    simp [collectPats, patFiles]
  | cons pat ps ih =>
    intro full md5
    simp only [collectPats, patFiles]
    rw [ih, dGet_dExtend_self]
    simp [List.append_assoc]

theorem collectPats_snd_false (g : GlobFn) (f : String) (r : Bool) :
    ∀ (pats : List String) (full md5 : SDict),
      (collectPats g f r false pats full md5).2 = md5 := by
  intro pats
  induction pats with
  | nil => intro full md5; rfl
  | cons pat ps ih =>
    intro full md5
    simp only [collectPats, Bool.false_eq_true, if_false]
    rw [ih]

theorem collectPats_snd_ne (g : GlobFn) (f : String) (r i : Bool) {k : String} (hk : k ≠ f) :
    ∀ (pats : List String) (full md5 : SDict),
      dGet ((collectPats g f r i pats full md5).2) k = dGet md5 k := by
  intro pats
  induction pats with
  | nil => intro full md5; rfl
  | cons pat ps ih =>
    intro full md5
    simp only [collectPats]
    rw [ih]
    cases i with
    | false => simp
    | true => simp [dGet_dExtend_ne _ _ _ hk]

theorem collectPats_snd_self (g : GlobFn) (f : String) (r i : Bool) :
    ∀ (pats : List String) (full md5 : SDict),
      (dGet ((collectPats g f r i pats full md5).2) f).getD [] =
        (dGet md5 f).getD [] ++ (if i then patFiles g f r pats else []) := by
  intro pats
  cases i with
  | false =>
    intro full md5
    rw [collectPats_snd_false]
    simp
  | true =>
    induction pats with
    | nil =>
      intro full md5
      simp [collectPats, patFiles]
    | cons pat ps ih =>
      intro full md5
      simp only [collectPats, patFiles, if_true]
      rw [ih]
      rw [dGet_dExtend_self]
      simp [List.append_assoc]

theorem nodup_collectPats_fst (g : GlobFn) (f : String) (r i : Bool) :
    ∀ (pats : List String) (full md5 : SDict),
      (dKeys full).Nodup → (dKeys ((collectPats g f r i pats full md5).1)).Nodup := by
  intro pats
  induction pats with
  | nil => intro full md5 h; exact h
  | cons pat ps ih =>
    intro full md5 h
    simp only [collectPats]
    exact ih _ _ (nodup_dKeys_dExtend h)

theorem nodup_collectPats_snd (g : GlobFn) (f : String) (r i : Bool) :
    ∀ (pats : List String) (full md5 : SDict),
      (dKeys md5).Nodup → (dKeys ((collectPats g f r i pats full md5).2)).Nodup := by
  intro pats
  induction pats with
  | nil => intro full md5 h; exact h
  | cons pat ps ih =>
    intro full md5 h
    simp only [collectPats]
    apply ih
    cases i with
    | false => simpa using h
    | true => simpa using nodup_dKeys_dExtend h

theorem itemsFiles_eq_nil (g : GlobFn) {k : String} :
    ∀ {rest : List ArtifactItem}, k ∉ rest.map (fun it => it.folder) →
      itemsFiles g k rest = [] := by
  intro rest
  induction rest with
  | nil => intro _; rfl
  | cons it items ih =>
    intro h
    simp only [List.map_cons, List.mem_cons] at h
    push_neg at h
    have hne : ¬ it.folder = k := fun hh => h.1 hh.symm
    simp only [itemsFiles, hne, if_false]
    rw [ih h.2]
    rfl

theorem itemsFilesMd5_eq_nil (g : GlobFn) {k : String} :
    ∀ {rest : List ArtifactItem}, k ∉ rest.map (fun it => it.folder) →
      itemsFilesMd5 g k rest = [] := by
  intro rest
  induction rest with
  | nil => intro _; rfl
  | cons it items ih =>
    intro h
    simp only [List.map_cons, List.mem_cons] at h
    push_neg at h
    have : ¬ (it.folder = k ∧ it.include_in_md5) := fun hh => h.1 hh.1.symm
    simp only [itemsFilesMd5, this, if_false]
    rw [ih h.2]
    rfl

theorem sortedDedup_flatten (A B C : List String) :
    sortedDedup (sortedDedup (A ++ B) ++ C) = sortedDedup (A ++ (B ++ C)) := by
  apply sortedDedup_congr
  intro a
  simp [List.mem_append, mem_sortedDedup]
  tauto

theorem collectItems_fst_get (g : GlobFn) :
    ∀ (rest : List ArtifactItem) (full md5 : SDict) (k : String),
      dGet ((collectItems g rest full md5).1) k =
        if k ∈ rest.map (fun it => it.folder) then
          some (sortedDedup ((dGet full k).getD [] ++ itemsFiles g k rest))
        else dGet full k := by
  intro rest
  induction rest with
  | nil =>
    intro full md5 k
    simp [collectItems]
  | cons it items ih =>
    intro full md5 k
    simp only [collectItems]
    rw [ih]
    by_cases hk : k = it.folder
    · rw [hk]
      have hself :
          dGet (dSet (collectPats g it.folder it.recursive it.include_in_md5 it.pattern full md5).1 it.folder
              (sortedDedup ((dGet (collectPats g it.folder it.recursive it.include_in_md5 it.pattern full md5).1 it.folder).getD []))) it.folder
            = some (sortedDedup ((dGet full it.folder).getD [] ++ matchedFiles g it)) := by
        rw [dGet_dSet_self, collectPats_fst_self]
        rfl
      by_cases hmem : it.folder ∈ items.map (fun j => j.folder)
      · rw [if_pos hmem, if_pos (by simp), hself]
        simp only [Option.getD_some]
        rw [sortedDedup_flatten]
        simp [itemsFiles]
      · rw [if_neg hmem, if_pos (by simp), hself]
        simp [itemsFiles, itemsFiles_eq_nil g hmem]
    · have hne :
          dGet (dSet (collectPats g it.folder it.recursive it.include_in_md5 it.pattern full md5).1 it.folder
              (sortedDedup ((dGet (collectPats g it.folder it.recursive it.include_in_md5 it.pattern full md5).1 it.folder).getD []))) k
            = dGet full k := by
        rw [dGet_dSet_ne _ _ _ hk, collectPats_fst_ne g _ _ _ hk]
      rw [hne]
      simp only [List.map_cons, List.mem_cons]
      have hknot : ¬ k = it.folder := hk
      have hfold : ¬ it.folder = k := fun hh => hk hh.symm
      simp only [hknot, false_or, itemsFiles, hfold, if_false, List.nil_append]

theorem collectItems_snd_get (g : GlobFn) :
    ∀ (rest : List ArtifactItem) (full md5 : SDict) (k : String),
      dGet ((collectItems g rest full md5).2) k =
        if k ∈ rest.map (fun it => it.folder) then
          some (sortedDedup ((dGet md5 k).getD [] ++ itemsFilesMd5 g k rest))
        else dGet md5 k := by
  intro rest
  induction rest with
  | nil =>
    intro full md5 k
    simp [collectItems]
  | cons it items ih =>
    intro full md5 k
    simp only [collectItems]
    rw [ih]
    by_cases hk : k = it.folder
    · rw [hk]
      have hself :
          dGet (dSet (collectPats g it.folder it.recursive it.include_in_md5 it.pattern full md5).2 it.folder
              (sortedDedup ((dGet (collectPats g it.folder it.recursive it.include_in_md5 it.pattern full md5).2 it.folder).getD []))) it.folder
            = some (sortedDedup ((dGet md5 it.folder).getD []
                ++ (if it.include_in_md5 then matchedFiles g it else []))) := by
        rw [dGet_dSet_self, collectPats_snd_self]
        rfl
      by_cases hmem : it.folder ∈ items.map (fun j => j.folder)
      · rw [if_pos hmem, if_pos (by simp), hself]
        simp only [Option.getD_some]
        rw [sortedDedup_flatten]
        simp [itemsFilesMd5]
      · rw [if_neg hmem, if_pos (by simp), hself]
        simp [itemsFilesMd5, itemsFilesMd5_eq_nil g hmem]
    · have hne :
          dGet (dSet (collectPats g it.folder it.recursive it.include_in_md5 it.pattern full md5).2 it.folder
              (sortedDedup ((dGet (collectPats g it.folder it.recursive it.include_in_md5 it.pattern full md5).2 it.folder).getD []))) k
            = dGet md5 k := by
        rw [dGet_dSet_ne _ _ _ hk, collectPats_snd_ne g _ _ _ hk]
      rw [hne]
      simp only [List.map_cons, List.mem_cons]
      have hknot : ¬ k = it.folder := hk
      have hcond : ¬ (it.folder = k ∧ it.include_in_md5) := fun hh => hk hh.1.symm
      simp only [hknot, false_or, itemsFilesMd5, hcond, if_false, List.nil_append]

theorem nodup_collectItems_fst (g : GlobFn) :
    ∀ (rest : List ArtifactItem) (full md5 : SDict),
      (dKeys full).Nodup → (dKeys ((collectItems g rest full md5).1)).Nodup := by
  intro rest
  induction rest with
  | nil => intro full md5 h; exact h
  | cons it items ih =>
    intro full md5 h
    simp only [collectItems]
    exact ih _ _ (nodup_dKeys_dSet (nodup_collectPats_fst g _ _ _ _ _ _ h))

theorem nodup_collectItems_snd (g : GlobFn) :
    ∀ (rest : List ArtifactItem) (full md5 : SDict),
      (dKeys md5).Nodup → (dKeys ((collectItems g rest full md5).2)).Nodup := by
  intro rest
  induction rest with
  | nil => intro full md5 h; exact h
  | cons it items ih =>
    intro full md5 h
    simp only [collectItems]
    exact ih _ _ (nodup_dKeys_dSet (nodup_collectPats_snd g _ _ _ _ _ _ h))

/-- Canonical form of the first mapping returned by `collect_files`:
the folders in sorted order, each with its sorted, deduplicated file
list. -/
theorem collect_files_fst (g : GlobFn) (arts : List ArtifactItem) :
    (collect_files g arts).1 =
      (sortedDedup (arts.map (fun it => it.folder))).map (fun k => (k, fullSpec g arts k)) := by
  have hn : (dKeys ((collectItems g arts [] []).1)).Nodup :=
    nodup_collectItems_fst g arts [] [] (by simp [dKeys])
  show sortPairs ((collectItems g arts [] []).1) = _
  rw [sortPairs_eq _ hn]
  have hkeys : sortedDedup (dKeys ((collectItems g arts [] []).1))
      = sortedDedup (arts.map (fun it => it.folder)) := by
    apply sortedDedup_congr
    intro a
    have hchar := collectItems_fst_get g arts [] [] a
    constructor
    · intro ha
      by_contra hmem
      rw [if_neg hmem] at hchar
      exact (dGet_eq_none_iff.mp (by rw [hchar]; rfl)) ha
    · intro ha
      rw [if_pos ha] at hchar
      by_contra hk
      rw [← dGet_eq_none_iff] at hk
      rw [hk] at hchar
      exact Option.noConfusion hchar
  rw [hkeys]
  apply List.map_congr_left
  intro k hk
  have := collectItems_fst_get g arts [] [] k
  rw [if_pos (mem_sortedDedup.mp hk)] at this
  rw [this]
  simp [fullSpec, dGet]

/-- Canonical form of the hash-only mapping returned by
`collect_files`. -/
theorem collect_files_snd (g : GlobFn) (arts : List ArtifactItem) :
    (collect_files g arts).2 =
      (sortedDedup (arts.map (fun it => it.folder))).map (fun k => (k, md5Spec g arts k)) := by
  have hn : (dKeys ((collectItems g arts [] []).2)).Nodup :=
    nodup_collectItems_snd g arts [] [] (by simp [dKeys])
  show sortPairs ((collectItems g arts [] []).2) = _
  rw [sortPairs_eq _ hn]
  have hkeys : sortedDedup (dKeys ((collectItems g arts [] []).2))
      = sortedDedup (arts.map (fun it => it.folder)) := by
    apply sortedDedup_congr
    intro a
    have hchar := collectItems_snd_get g arts [] [] a
    constructor
    · intro ha
      by_contra hmem
      rw [if_neg hmem] at hchar
      exact (dGet_eq_none_iff.mp (by rw [hchar]; rfl)) ha
    · intro ha
      rw [if_pos ha] at hchar
      by_contra hk
      rw [← dGet_eq_none_iff] at hk
      rw [hk] at hchar
      exact Option.noConfusion hchar
  rw [hkeys]
  apply List.map_congr_left
  intro k hk
  have := collectItems_snd_get g arts [] [] k
  rw [if_pos (mem_sortedDedup.mp hk)] at this
  rw [this]
  simp [md5Spec, dGet]

/-! ## Lemmas: the archiver -/

theorem add_file_spec (ex : Bool) (mt : Nat × Nat × Nat × Nat × Nat × Nat) (md : Nat)
    (p : String) (c : List Nat) :
    add_file ex mt md p c =
      { filename := p, date_time := (2020, 1, 1, 0, 0, 0),
        extAttrib := (S_IFREG ||| (if ex then 0o555 else 0o444)) <<< 16, content := c } := rfl

theorem lookupTmp_cons_self (n : String) (c : List Nat) (t : List (String × List Nat)) :
    lookupTmp ((n, c) :: t) n = some c := by
  simp [lookupTmp]

theorem unlinkTmp_cons_self (n : String) (c : List Nat) (t : List (String × List Nat)) :
    unlinkTmp ((n, c) :: t) n = t := by
  simp [unlinkTmp]

theorem zipNormal_skip {folder path : String} {st : ZState}
    (h : st.fs folder path = none) : zipNormal folder path st = .ok st := by
  unfold zipNormal
  rw [h]

theorem zipNormal_add {folder path : String} {st : ZState} {fi : FileInfo}
    (h : st.fs folder path = some fi) :
    zipNormal folder path st =
      .ok { st with entries := st.entries ++ [add_file fi.exec fi.mtime fi.mode path fi.content] } := by
  unfold zipNormal
  rw [h]

theorem zipPath_eq_normal_none (ym : YamlModel) (folder path : String) (st : ZState) :
    zipPath ym none folder path st = zipNormal folder path st := rfl

theorem zipPath_eq_normal_some (ym : YamlModel) (v : String) {folder path : String} (st : ZState)
    (h : ¬ (folder = "." ∧ path = "module.yml")) :
    zipPath ym (some v) folder path st = zipNormal folder path st := by
  unfold zipPath
  dsimp only
  rw [if_neg h]

theorem zipPath_special_missing {ym : YamlModel} {v : String} {st : ZState}
    (hfa : st.fs "." "module.yml" = none) :
    zipPath ym (some v) "." "module.yml" st = .error (.fileNotFound "." "module.yml") := by
  unfold zipPath generate_versioned_conf
  dsimp only
  rw [if_pos ⟨rfl, rfl⟩, hfa]

theorem zipPath_special_badparse {ym : YamlModel} {v : String} {st : ZState} {fi : FileInfo}
    (hfa : st.fs "." "module.yml" = some fi) (hp : ym.parse fi.content = none) :
    zipPath ym (some v) "." "module.yml" st = .error (.parseFailed "." "module.yml") := by
  unfold zipPath generate_versioned_conf
  dsimp only
  rw [if_pos ⟨rfl, rfl⟩, hfa]
  dsimp only
  rw [hp]

theorem zipPath_special_ok {ym : YamlModel} {v : String} {st : ZState} {fi : FileInfo}
    {conf : Conf} (hfa : st.fs "." "module.yml" = some fi)
    (hp : ym.parse fi.content = some conf) :
    zipPath ym (some v) "." "module.yml" st =
      .ok { st with counter := st.counter + 1,
                    entries := st.entries
                      ++ [add_file false fi.mtime fi.mode "module.yml"
                            (ym.dump { conf with version := v })] } := by
  unfold zipPath generate_versioned_conf
  dsimp only
  rw [if_pos ⟨rfl, rfl⟩, hfa]
  dsimp only
  rw [hp]
  dsimp only
  rw [hfa]
  dsimp only
  rw [lookupTmp_cons_self, unlinkTmp_cons_self]
  rfl

theorem zipPath_zrel (ym : YamlModel) (version : Option String) (folder path : String)
    {fs1 fs2 : FS} {st1 st2 : ZState}
    (h1 : st1.fs = fs1) (h2 : st2.fs = fs2) (ht : st1.tmp = st2.tmp)
    (hc : st1.counter = st2.counter) (he : st1.entries = st2.entries)
    (hag : fsAgree fs1 fs2 folder path) :
    zrel fs1 fs2 (zipPath ym version folder path st1) (zipPath ym version folder path st2) := by
  have hnormal : zrel fs1 fs2 (zipNormal folder path st1) (zipNormal folder path st2) := by
    unfold fsAgree at hag
    cases hfa : fs1 folder path with
    | none =>
      cases hfb : fs2 folder path with
      | none =>
        have ha1 : st1.fs folder path = none := by rw [h1]; exact hfa
        have ha2 : st2.fs folder path = none := by rw [h2]; exact hfb
        rw [zipNormal_skip ha1, zipNormal_skip ha2]
        exact ⟨h1, h2, ht, hc, he⟩
      | some fb =>
        rw [hfa, hfb] at hag
        exact hag.elim
    | some fa =>
      cases hfb : fs2 folder path with
      | none =>
        rw [hfa, hfb] at hag
        exact hag.elim
      | some fb =>
        rw [hfa, hfb] at hag
        have ha1 : st1.fs folder path = some fa := by rw [h1]; exact hfa
        have ha2 : st2.fs folder path = some fb := by rw [h2]; exact hfb
        rw [zipNormal_add ha1, zipNormal_add ha2]
        refine ⟨h1, h2, ht, hc, ?_⟩
        rw [he, add_file_spec, add_file_spec, hag.1, hag.2]
  cases version with
  | none => exact hnormal
  | some v =>
    by_cases hcond : folder = "." ∧ path = "module.yml"
    · obtain ⟨rfl, rfl⟩ := hcond
      unfold fsAgree at hag
      cases hfa : fs1 "." "module.yml" with
      | none =>
        cases hfb : fs2 "." "module.yml" with
        | none =>
          have ha1 : st1.fs "." "module.yml" = none := by rw [h1]; exact hfa
          have ha2 : st2.fs "." "module.yml" = none := by rw [h2]; exact hfb
          rw [zipPath_special_missing ha1, zipPath_special_missing ha2]
          show ZipError.fileNotFound "." "module.yml" = ZipError.fileNotFound "." "module.yml"
          rfl
        | some fb =>
          rw [hfa, hfb] at hag
          exact hag.elim
      | some fa =>
        cases hfb : fs2 "." "module.yml" with
        | none =>
          rw [hfa, hfb] at hag
          exact hag.elim
        | some fb =>
          rw [hfa, hfb] at hag
          have ha1 : st1.fs "." "module.yml" = some fa := by rw [h1]; exact hfa
          have ha2 : st2.fs "." "module.yml" = some fb := by rw [h2]; exact hfb
          cases hp : ym.parse fb.content with
          | none =>
            have hp1 : ym.parse fa.content = none := by rw [hag.1]; exact hp
            rw [zipPath_special_badparse ha1 hp1, zipPath_special_badparse ha2 hp]
            show ZipError.parseFailed "." "module.yml" = ZipError.parseFailed "." "module.yml"
            rfl
          | some conf =>
            have hp1 : ym.parse fa.content = some conf := by rw [hag.1]; exact hp
            rw [zipPath_special_ok ha1 hp1, zipPath_special_ok ha2 hp]
            refine ⟨h1, h2, ht, by rw [hc], ?_⟩
            rw [he, add_file_spec, add_file_spec]
    · rw [zipPath_eq_normal_some ym v st1 hcond, zipPath_eq_normal_some ym v st2 hcond]
      exact hnormal

theorem zipPaths_zrel (ym : YamlModel) (version : Option String) (folder : String)
    {fs1 fs2 : FS} :
    ∀ (paths : List String) (st1 st2 : ZState),
      st1.fs = fs1 → st2.fs = fs2 → st1.tmp = st2.tmp → st1.counter = st2.counter →
      st1.entries = st2.entries →
      (∀ p ∈ paths, fsAgree fs1 fs2 folder p) →
      zrel fs1 fs2 (zipPaths ym version folder paths st1) (zipPaths ym version folder paths st2) := by
  intro paths
  induction paths with
  | nil =>
    intro st1 st2 h1 h2 ht hc he _
    exact ⟨h1, h2, ht, hc, he⟩
  | cons p ps ih =>
    intro st1 st2 h1 h2 ht hc he hags
    have hstep := zipPath_zrel ym version folder p h1 h2 ht hc he
      (hags p (List.mem_cons_self p ps))
    unfold zipPaths
    cases hx : zipPath ym version folder p st1 with
    | error e =>
      cases hy : zipPath ym version folder p st2 with
      | error e2 =>
        rw [hx, hy] at hstep
        have heq : e = e2 := hstep
        subst heq
        show (e : ZipError) = e
        rfl
      | ok b =>
        rw [hx, hy] at hstep
        exact hstep.elim
    | ok a =>
      cases hy : zipPath ym version folder p st2 with
      | error e =>
        rw [hx, hy] at hstep
        exact hstep.elim
      | ok b =>
        rw [hx, hy] at hstep
        obtain ⟨ha, hb, ht', hc', he'⟩ := hstep
        exact ih a b ha hb ht' hc' he' (fun q hq => hags q (List.mem_cons_of_mem p hq))

theorem zipFolders_zrel (ym : YamlModel) (version : Option String) {fs1 fs2 : FS} :
    ∀ (files : List (String × List String)) (st1 st2 : ZState),
      st1.fs = fs1 → st2.fs = fs2 → st1.tmp = st2.tmp → st1.counter = st2.counter →
      st1.entries = st2.entries →
      (∀ pr ∈ files, ∀ p ∈ pr.2, fsAgree fs1 fs2 pr.1 p) →
      zrel fs1 fs2 (zipFolders ym version files st1) (zipFolders ym version files st2) := by
  intro files
  induction files with
  | nil =>
    intro st1 st2 h1 h2 ht hc he _
    exact ⟨h1, h2, ht, hc, he⟩
  | cons pr rest ih =>
    intro st1 st2 h1 h2 ht hc he hags
    have hstep := zipPaths_zrel ym version pr.1 pr.2 st1 st2 h1 h2 ht hc he
      (fun p hp => hags pr (List.mem_cons_self pr rest) p hp)
    unfold zipFolders
    cases hx : zipPaths ym version pr.1 pr.2 st1 with
    | error e =>
      cases hy : zipPaths ym version pr.1 pr.2 st2 with
      | error e2 =>
        rw [hx, hy] at hstep
        have heq : e = e2 := hstep
        subst heq
        show (e : ZipError) = e
        rfl
      | ok b =>
        rw [hx, hy] at hstep
        exact hstep.elim
    | ok a =>
      cases hy : zipPaths ym version pr.1 pr.2 st2 with
      | error e =>
        rw [hx, hy] at hstep
        exact hstep.elim
      | ok b =>
        rw [hx, hy] at hstep
        obtain ⟨ha, hb, ht', hc', he'⟩ := hstep
        exact ih a b ha hb ht' hc' he'
          (fun q hq p hp => hags q (List.mem_cons_of_mem pr hq) p hp)

theorem zipNormal_frame {folder path : String} {st st' : ZState}
    (h : zipNormal folder path st = .ok st') :
    st'.fs = st.fs ∧ st'.tmp = st.tmp ∧ ∃ t, st'.entries = st.entries ++ t := by
  cases hfa : st.fs folder path with
  | none =>
    rw [zipNormal_skip hfa] at h
    injection h with h
    subst h
    exact ⟨rfl, rfl, [], by simp⟩
  | some fi =>
    rw [zipNormal_add hfa] at h
    injection h with h
    subst h
    exact ⟨rfl, rfl, [add_file fi.exec fi.mtime fi.mode path fi.content], rfl⟩

theorem zipPath_frame {ym : YamlModel} {version : Option String} {folder path : String}
    {st st' : ZState} (h : zipPath ym version folder path st = .ok st') :
    st'.fs = st.fs ∧ st'.tmp = st.tmp ∧ ∃ t, st'.entries = st.entries ++ t := by
  cases version with
  | none => exact zipNormal_frame h
  | some v =>
    by_cases hcond : folder = "." ∧ path = "module.yml"
    · obtain ⟨rfl, rfl⟩ := hcond
      cases hfa : st.fs "." "module.yml" with
      | none =>
        rw [zipPath_special_missing hfa] at h
        exact Except.noConfusion h
      | some fi =>
        cases hp : ym.parse fi.content with
        | none =>
          rw [zipPath_special_badparse hfa hp] at h
          exact Except.noConfusion h
        | some conf =>
          rw [zipPath_special_ok hfa hp] at h
          injection h with h
          subst h
          exact ⟨rfl, rfl,
            [add_file false fi.mtime fi.mode "module.yml" (ym.dump { conf with version := v })],
            rfl⟩
    · rw [zipPath_eq_normal_some ym v st hcond] at h
      exact zipNormal_frame h

theorem zipPaths_frame {ym : YamlModel} {version : Option String} {folder : String} :
    ∀ {paths : List String} {st st' : ZState},
      zipPaths ym version folder paths st = .ok st' →
      st'.fs = st.fs ∧ st'.tmp = st.tmp ∧ ∃ t, st'.entries = st.entries ++ t := by
  intro paths
  induction paths with
  | nil =>
    intro st st' h
    injection h with h
    subst h
    exact ⟨rfl, rfl, [], by simp⟩
  | cons p ps ih =>
    intro st st' h
    unfold zipPaths at h
    cases hx : zipPath ym version folder p st with
    | error e =>
      rw [hx] at h
      exact Except.noConfusion h
    | ok mid =>
      rw [hx] at h
      obtain ⟨hf1, ht1, t1, he1⟩ := zipPath_frame hx
      obtain ⟨hf2, ht2, t2, he2⟩ := ih h
      refine ⟨hf2.trans hf1, ht2.trans ht1, t1 ++ t2, ?_⟩
      rw [he2, he1, List.append_assoc]

theorem zipFolders_frame {ym : YamlModel} {version : Option String} :
    ∀ {files : List (String × List String)} {st st' : ZState},
      zipFolders ym version files st = .ok st' →
      st'.fs = st.fs ∧ st'.tmp = st.tmp ∧ ∃ t, st'.entries = st.entries ++ t := by
  intro files
  induction files with
  | nil =>
    intro st st' h
    injection h with h
    subst h
    exact ⟨rfl, rfl, [], by simp⟩
  | cons pr rest ih =>
    intro st st' h
    unfold zipFolders at h
    cases hx : zipPaths ym version pr.1 pr.2 st with
    | error e =>
      rw [hx] at h
      exact Except.noConfusion h
    | ok mid =>
      rw [hx] at h
      obtain ⟨hf1, ht1, t1, he1⟩ := zipPaths_frame hx
      obtain ⟨hf2, ht2, t2, he2⟩ := ih h
      refine ⟨hf2.trans hf1, ht2.trans ht1, t1 ++ t2, ?_⟩
      rw [he2, he1, List.append_assoc]

/-- Every entry an archiver step appends is an `add_file` result. -/
theorem zipPath_shape {ym : YamlModel} {version : Option String} {folder path : String}
    {st st' : ZState} (h : zipPath ym version folder path st = .ok st') :
    ∀ e ∈ st'.entries,
      e ∈ st.entries ∨ ∃ ex mt md p c, e = add_file ex mt md p c := by
  have hnormal : ∀ {st0 st0' : ZState}, zipNormal folder path st0 = .ok st0' →
      ∀ e ∈ st0'.entries,
        e ∈ st0.entries ∨ ∃ ex mt md p c, e = add_file ex mt md p c := by
    intro st0 st0' h0 e he
    cases hfa : st0.fs folder path with
    | none =>
      rw [zipNormal_skip hfa] at h0
      injection h0 with h0
      subst h0
      exact Or.inl he
    | some fi =>
      rw [zipNormal_add hfa] at h0
      injection h0 with h0
      subst h0
      rcases List.mem_append.mp he with he | he
      · exact Or.inl he
      · exact Or.inr ⟨fi.exec, fi.mtime, fi.mode, path, fi.content, List.mem_singleton.mp he⟩
  cases version with
  | none => exact hnormal h
  | some v =>
    by_cases hcond : folder = "." ∧ path = "module.yml"
    · obtain ⟨rfl, rfl⟩ := hcond
      cases hfa : st.fs "." "module.yml" with
      | none =>
        rw [zipPath_special_missing hfa] at h
        exact Except.noConfusion h
      | some fi =>
        cases hp : ym.parse fi.content with
        | none =>
          rw [zipPath_special_badparse hfa hp] at h
          exact Except.noConfusion h
        | some conf =>
          rw [zipPath_special_ok hfa hp] at h
          injection h with h
          subst h
          intro e he
          rcases List.mem_append.mp he with he | he
          · exact Or.inl he
          · exact Or.inr ⟨false, fi.mtime, fi.mode, "module.yml",
              ym.dump { conf with version := v }, List.mem_singleton.mp he⟩
    · rw [zipPath_eq_normal_some ym v st hcond] at h
      exact hnormal h

theorem zipPaths_shape {ym : YamlModel} {version : Option String} {folder : String} :
    ∀ {paths : List String} {st st' : ZState},
      zipPaths ym version folder paths st = .ok st' →
      ∀ e ∈ st'.entries,
        e ∈ st.entries ∨ ∃ ex mt md p c, e = add_file ex mt md p c := by
  intro paths
  induction paths with
  | nil =>
    intro st st' h e he
    injection h with h
    subst h
    exact Or.inl he
  | cons p ps ih =>
    intro st st' h e he
    unfold zipPaths at h
    cases hx : zipPath ym version folder p st with
    | error e2 =>
      rw [hx] at h
      exact Except.noConfusion h
    | ok mid =>
      rw [hx] at h
      rcases ih h e he with hmid | hsh
      · exact zipPath_shape hx e hmid
      · exact Or.inr hsh

theorem zipFolders_shape {ym : YamlModel} {version : Option String} :
    ∀ {files : List (String × List String)} {st st' : ZState},
      zipFolders ym version files st = .ok st' →
      ∀ e ∈ st'.entries,
        e ∈ st.entries ∨ ∃ ex mt md p c, e = add_file ex mt md p c := by
  intro files
  induction files with
  | nil =>
    intro st st' h e he
    injection h with h
    subst h
    exact Or.inl he
  | cons pr rest ih =>
    intro st st' h e he
    unfold zipFolders at h
    cases hx : zipPaths ym version pr.1 pr.2 st with
    | error e2 =>
      rw [hx] at h
      exact Except.noConfusion h
    | ok mid =>
      rw [hx] at h
      rcases ih h e he with hmid | hsh
      · exact zipPaths_shape hx e hmid
      · exact Or.inr hsh

/-- When the manifest-rewriting branch is never taken, the inner loop
archives exactly the listed files that still exist, in order, and never
fails. -/
theorem zipPaths_noSpecial (ym : YamlModel) (version : Option String) (folder : String) :
    ∀ (paths : List String) (st : ZState),
      (∀ p ∈ paths, folder = "." → p = "module.yml" → version = none) →
      zipPaths ym version folder paths st
        = .ok { st with entries := st.entries ++ survPaths st.fs folder paths } := by
  intro paths
  induction paths with
  | nil =>
    intro st _
    show Except.ok st = _
    rw [show survPaths st.fs folder [] = [] from rfl, List.append_nil]
  | cons p ps ih =>
    intro st h
    have hpath : zipPath ym version folder p st = zipNormal folder p st := by
      cases version with
      | none => rfl
      | some v =>
        apply zipPath_eq_normal_some
        rintro ⟨hf, hp⟩
        exact Option.noConfusion (h p (List.mem_cons_self p ps) hf hp)
    have hps : ∀ q ∈ ps, folder = "." → q = "module.yml" → version = none :=
      fun q hq => h q (List.mem_cons_of_mem p hq)
    unfold zipPaths
    rw [hpath]
    cases hfa : st.fs folder p with
    | none =>
      rw [zipNormal_skip hfa]
      dsimp only
      rw [ih st hps]
      have hsurv : survPaths st.fs folder (p :: ps) = survPaths st.fs folder ps := by
        simp [survPaths, hfa]
      rw [hsurv]
    | some fi =>
      rw [zipNormal_add hfa]
      dsimp only
      rw [ih _ hps]
      have hsurv : survPaths st.fs folder (p :: ps)
          = add_file fi.exec fi.mtime fi.mode p fi.content :: survPaths st.fs folder ps := by
        simp [survPaths, hfa]
      rw [hsurv]
      show Except.ok _ = _
      simp [List.append_assoc]

/-- When the manifest-rewriting branch is never taken, `zipFolders`
archives exactly the surviving files and never fails. -/
theorem zipFolders_noSpecial (ym : YamlModel) (version : Option String) :
    ∀ (files : List (String × List String)) (st : ZState),
      (∀ pr ∈ files, pr.1 = "." → "module.yml" ∈ pr.2 → version = none) →
      zipFolders ym version files st
        = .ok { st with entries := st.entries ++ surviving st.fs files } := by
  intro files
  induction files with
  | nil =>
    intro st _
    show Except.ok st = _
    rw [show surviving st.fs [] = [] from rfl, List.append_nil]
  | cons pr rest ih =>
    intro st h
    have hpaths : ∀ p ∈ pr.2, pr.1 = "." → p = "module.yml" → version = none := by
      intro p hp hf hmod
      exact h pr (List.mem_cons_self pr rest) hf (hmod ▸ hp)
    have hrest : ∀ q ∈ rest, q.1 = "." → "module.yml" ∈ q.2 → version = none :=
      fun q hq => h q (List.mem_cons_of_mem pr hq)
    unfold zipFolders
    rw [zipPaths_noSpecial ym version pr.1 pr.2 st hpaths]
    dsimp only
    rw [ih _ hrest]
    show Except.ok _ = _
    rw [show surviving st.fs (pr :: rest)
        = survPaths st.fs pr.1 pr.2 ++ surviving st.fs rest from rfl]
    simp [List.append_assoc]

/-! ## The claims -/

/-- C1: two `create_zip` invocations on the same ordered (folder,
file-list) pairs and the same version argument return identical archives
whenever each listed file has the same bytes and the same executable bit
in both filesystems — invocation time, host stat metadata and everything
outside the listed files (such as absolute path prefixes) do not enter
the result. -/
theorem claim_C1 (ym : YamlModel) (fs1 fs2 : FS) (files : List (String × List String))
    (version : Option String)
    (h : ∀ pr ∈ files, ∀ p ∈ pr.2, fsAgree fs1 fs2 pr.1 p) :
    create_zip ym fs1 files version = create_zip ym fs2 files version := by
  have hz := zipFolders_zrel ym version files
    { fs := fs1, tmp := [], counter := 0, entries := [] }
    { fs := fs2, tmp := [], counter := 0, entries := [] } rfl rfl rfl rfl rfl h
  unfold create_zip create_zip_run
  cases hx : zipFolders ym version files { fs := fs1, tmp := [], counter := 0, entries := [] } with
  | error e =>
    cases hy : zipFolders ym version files { fs := fs2, tmp := [], counter := 0, entries := [] } with
    | error e2 =>
      rw [hx, hy] at hz
      have heq : e = e2 := hz
      subst heq
      rfl
    | ok b =>
      rw [hx, hy] at hz
      exact hz.elim
  | ok a =>
    cases hy : zipFolders ym version files { fs := fs2, tmp := [], counter := 0, entries := [] } with
    | error e =>
      rw [hx, hy] at hz
      exact hz.elim
    | ok b =>
      rw [hx, hy] at hz
      obtain ⟨_, _, _, _, he⟩ := hz
      show Except.ok a.entries = Except.ok b.entries
      rw [he]

theorem claim_C1_wit :
    create_zip ymW fsW1 [(".", ["a"])] none = create_zip ymW fsW2 [(".", ["a"])] none :=
  claim_C1 ymW fsW1 fsW2 [(".", ["a"])] none (by
    intro pr hpr p hp
    simp only [List.mem_singleton] at hpr
    subst hpr
    simp only [List.mem_singleton] at hp
    subst hp
    exact ⟨rfl, rfl⟩)

/-- C2: the publish compare logic — same version and same fingerprint
exits 0 with no upload; same version and different fingerprint exits 1
with no upload and no Latest Pointer write; different version with the
fingerprint matching the latest exits 0 with no upload; otherwise the
archive is uploaded (no early exit, an upload key is produced). -/
theorem claim_C2 (module_name version md5 : String) (lv lm : Option String) :
    (lv = some version → lm = some md5 →
      publish module_name version md5 lv lm
        = { exitCode := some 0, uploadedKey := none, latestWrite := none }) ∧
    (lv = some version → lm ≠ some md5 →
      publish module_name version md5 lv lm
        = { exitCode := some 1, uploadedKey := none, latestWrite := none }) ∧
    (lv ≠ some version → lm = some md5 →
      publish module_name version md5 lv lm
        = { exitCode := some 0, uploadedKey := none, latestWrite := none }) ∧
    (lv ≠ some version → lm ≠ some md5 →
      (publish module_name version md5 lv lm).exitCode = none ∧
      (publish module_name version md5 lv lm).uploadedKey
        = some (moduleKey module_name version)) := by
  refine ⟨?_, ?_, ?_, ?_⟩ <;> intro h1 h2 <;> simp [publish, h1, h2]

theorem claim_C2_wit :
    publish "m" "1.0.7" "aaaa" (some "1.0.7") (some "bbbb")
      = { exitCode := some 1, uploadedKey := none, latestWrite := none } ∧
    ((publish "m" "1.0.7" "aaaa" (some "1.0.6") (some "bbbb")).exitCode = none ∧
     (publish "m" "1.0.7" "aaaa" (some "1.0.6") (some "bbbb")).uploadedKey
       = some (moduleKey "m" "1.0.7")) :=
  ⟨(claim_C2 "m" "1.0.7" "aaaa" (some "1.0.7") (some "bbbb")).2.1 rfl (by decide),
   (claim_C2 "m" "1.0.7" "aaaa" (some "1.0.6") (some "bbbb")).2.2.2 (by decide) (by decide)⟩

/-- C3: both mappings returned by `collect_files` have every folder's
file list strictly sorted (sorted lexicographically and deduplicated) —
also when several artifact groups share a folder, since each group's
pass re-sorts and re-deduplicates its folder's accumulated list — and
both are sequences of (folder, files) pairs strictly sorted by folder
name. -/
theorem claim_C3 (g : GlobFn) (arts : List ArtifactItem) :
    (∀ pr ∈ (collect_files g arts).1, pr.2.Pairwise sLt) ∧
    (∀ pr ∈ (collect_files g arts).2, pr.2.Pairwise sLt) ∧
    (collect_files g arts).1.Pairwise (fun a b => sLt a.1 b.1) ∧
    (collect_files g arts).2.Pairwise (fun a b => sLt a.1 b.1) := by
  rw [collect_files_fst, collect_files_snd]
  refine ⟨?_, ?_, ?_, ?_⟩
  · intro pr hpr
    rcases List.mem_map.mp hpr with ⟨k, _, rfl⟩
    exact pairwise_sortedDedup _
  · intro pr hpr
    rcases List.mem_map.mp hpr with ⟨k, _, rfl⟩
    exact pairwise_sortedDedup _
  · rw [List.pairwise_map]
    exact pairwise_sortedDedup _
  · rw [List.pairwise_map]
    exact pairwise_sortedDedup _

theorem claim_C3_wit :
    (["a.txt", "b.txt"] : List String).Pairwise sLt ∧
    (collect_files gW [itW1, itW2]).1.Pairwise (fun a b => sLt a.1 b.1) :=
  ⟨(claim_C3 gW [itW1, itW2]).1 (".", ["a.txt", "b.txt"])
      (by
        rw [show (collect_files gW [itW1, itW2]).1 = [(".", ["a.txt", "b.txt"])] from rfl]
        exact List.mem_singleton.mpr rfl),
   (claim_C3 gW [itW1, itW2]).2.2.1⟩

/-- C4: a resolved version containing `"dev"` never writes the Latest
Pointer Document and, when the archive is stored, it is stored under
`modules/dev/<name>-<version>.zip`; a version without `"dev"`, when the
archive is stored, stores it under `modules/<name>-<version>.zip` and
writes the new (version, fingerprint) to the Latest Pointer Document. -/
theorem claim_C4 (module_name version md5 : String) (lv lm : Option String) :
    (hasSub version "dev" = true →
      (publish module_name version md5 lv lm).latestWrite = none ∧
      (∀ k, (publish module_name version md5 lv lm).uploadedKey = some k →
        k = "modules/dev/" ++ module_name ++ "-" ++ version ++ ".zip")) ∧
    (hasSub version "dev" = false →
      ∀ k, (publish module_name version md5 lv lm).uploadedKey = some k →
        k = "modules/" ++ module_name ++ "-" ++ version ++ ".zip" ∧
        (publish module_name version md5 lv lm).latestWrite = some (version, md5)) := by
  constructor
  · intro hdev
    have hkey : moduleKey module_name version
        = "modules/dev/" ++ module_name ++ "-" ++ version ++ ".zip" := by
      simp [moduleKey, hdev]
    unfold publish
    split_ifs with h1 h2 h3
    · exact ⟨rfl, fun k hk => hk.elim⟩
    · exact ⟨rfl, fun k hk => hk.elim⟩
    · exact ⟨rfl, fun k hk => hk.elim⟩
    · refine ⟨rfl, ?_⟩
      intro k hk
      injection hk with hk
      subst hk
      exact hkey
  · intro hdev
    have hkey : moduleKey module_name version
        = "modules/" ++ module_name ++ "-" ++ version ++ ".zip" := by
      simp [moduleKey, hdev]
    unfold publish
    split_ifs with h1 h2 h3 h4
    · exact fun k hk => hk.elim
    · exact fun k hk => hk.elim
    · exact fun k hk => hk.elim
    · rw [hdev] at h4
      exact (Bool.false_ne_true h4).elim
    · intro k hk
      injection hk with hk
      subst hk
      exact ⟨hkey, rfl⟩

theorem claim_C4_wit :
    ((publish "m" "1.0.dev5" "h" none none).latestWrite = none ∧
      (∀ k, (publish "m" "1.0.dev5" "h" none none).uploadedKey = some k →
        k = "modules/dev/" ++ "m" ++ "-" ++ "1.0.dev5" ++ ".zip")) ∧
    (∀ k, (publish "m" "1.0.7" "h" none none).uploadedKey = some k →
      k = "modules/" ++ "m" ++ "-" ++ "1.0.7" ++ ".zip" ∧
      (publish "m" "1.0.7" "h" none none).latestWrite = some ("1.0.7", "h")) :=
  ⟨(claim_C4 "m" "1.0.dev5" "h" none none).1 rfl,
   (claim_C4 "m" "1.0.7" "h" none none).2 rfl⟩

/-- C5 counterexample: a listed path named `module.yml` in the root
folder with a version supplied is NOT silently skipped when missing —
`create_zip` fails, because the manifest-rewriting branch opens the file
without an `isfile` guard. -/
theorem claim_C5_cx :
    create_zip ymN fsN [(".", ["module.yml"])] (some "1.0")
      = .error (.fileNotFound "." "module.yml") := rfl

/-- C5 (amended): any listed path that is no longer a regular file at
archiving time is silently skipped and the archive holds exactly the
still-existing listed files — except the special case of a path named
`module.yml` in the root folder while a version string is supplied,
which is opened unconditionally.  Outside that special case `create_zip`
raises no error. -/
theorem claim_C5_thm (ym : YamlModel) (fs : FS) (files : List (String × List String))
    (version : Option String)
    (h : ∀ pr ∈ files, pr.1 = "." → "module.yml" ∈ pr.2 → version = none) :
    create_zip ym fs files version = .ok (surviving fs files) := by
  unfold create_zip create_zip_run
  rw [zipFolders_noSpecial ym version files _ h]
  rfl

theorem claim_C5_wit :
    create_zip ymW fsW1 [(".", ["a", "b"])] none = .ok (surviving fsW1 [(".", ["a", "b"])]) :=
  claim_C5_thm ymW fsW1 [(".", ["a", "b"])] none (fun _ _ _ _ => rfl)

/-- C6: every archive entry's permission bits are read+execute-for-all
(`0o555`) exactly when the source executable bit is set and
read-only-for-all (`0o444`) otherwise — only these two attribute values
occur, for any source mode and mtime — and every entry's timestamp is
the fixed date (2020, 1, 1, 0, 0, 0). -/
theorem claim_C6 (ex : Bool) (mt : Nat × Nat × Nat × Nat × Nat × Nat) (md : Nat)
    (p : String) (c : List Nat) :
    (add_file ex mt md p c).date_time = (2020, 1, 1, 0, 0, 0) ∧
    ((add_file ex mt md p c).extAttrib = (S_IFREG ||| 0o555) <<< 16 ↔ ex = true) ∧
    ((add_file ex mt md p c).extAttrib = (S_IFREG ||| 0o444) <<< 16 ↔ ex = false) ∧
    (∀ (ym : YamlModel) (fs : FS) (files : List (String × List String))
        (version : Option String) (es : List ZipEntry),
      create_zip ym fs files version = .ok es →
      ∀ e ∈ es, e.date_time = (2020, 1, 1, 0, 0, 0) ∧
        (e.extAttrib = (S_IFREG ||| 0o555) <<< 16 ∨
          e.extAttrib = (S_IFREG ||| 0o444) <<< 16)) := by
  refine ⟨rfl, ?_, ?_, ?_⟩
  · cases ex
    · exact iff_of_false
        (fun hcontra => by
          simp only [add_file_spec] at hcontra
          exact absurd hcontra (by decide)) (by decide)
    · exact iff_of_true rfl rfl
  · cases ex
    · exact iff_of_true rfl rfl
    · exact iff_of_false
        (fun hcontra => by
          simp only [add_file_spec] at hcontra
          exact absurd hcontra (by decide)) (by decide)
  · intro ym fs files version es h e he
    unfold create_zip create_zip_run at h
    cases hx : zipFolders ym version files { fs := fs, tmp := [], counter := 0, entries := [] } with
    | error e2 =>
      rw [hx] at h
      exact Except.noConfusion h
    | ok st' =>
      rw [hx] at h
      injection h with h
      subst h
      rcases zipFolders_shape hx e he with hmem | ⟨ex', mt', md', p', c', rfl⟩
      · exact absurd hmem (List.not_mem_nil e)
      · rw [add_file_spec]
        refine ⟨rfl, ?_⟩
        cases ex'
        · exact Or.inr rfl
        · exact Or.inl rfl

theorem claim_C6_wit :
    (add_file true (1999, 2, 3, 4, 5, 6) 0o700 "a" [104, 105]).date_time
        = (2020, 1, 1, 0, 0, 0) ∧
    (entW.date_time = (2020, 1, 1, 0, 0, 0) ∧
      (entW.extAttrib = (S_IFREG ||| 0o555) <<< 16 ∨
        entW.extAttrib = (S_IFREG ||| 0o444) <<< 16)) :=
  ⟨(claim_C6 true (1999, 2, 3, 4, 5, 6) 0o700 "a" [104, 105]).1,
   (claim_C6 true (1999, 2, 3, 4, 5, 6) 0o700 "a" [104, 105]).2.2.2 ymW fsW1
     [(".", ["a"])] none [entW] rfl entW (List.mem_singleton.mpr rfl)⟩

/-- C7: fetching the Latest Pointer Document returns absent version and
absent fingerprint when the store raises with code `NoSuchKey` (never an
error or a non-zero exit on not-found); an error response with any other
truthy provider code aborts with exit 1 reporting that code; a
credentials failure aborts with exit 1. -/
theorem claim_C7 (parseLatest : List Nat → Option (String × String)) (store : Store)
    (bucket module_name : String) :
    (store bucket (latestKey module_name) = .raiseWithCode "NoSuchKey" →
      get_latest_details parseLatest store bucket module_name = .ok none none) ∧
    (∀ c, store bucket (latestKey module_name) = .raiseWithCode c →
      c ≠ "NoSuchKey" → c ≠ "" →
      get_latest_details parseLatest store bucket module_name = .fatal 1 (some c)) ∧
    (store bucket (latestKey module_name) = .noCreds →
      get_latest_details parseLatest store bucket module_name = .fatal 1 none) := by
  refine ⟨?_, ?_, ?_⟩
  · intro h
    unfold get_latest_details get_object
    rw [h]
    rfl
  ·
    intro c h hne hempty
    unfold get_latest_details get_object
    rw [h]
    dsimp only
    rw [if_neg hne, if_neg hempty]
  · intro h
    unfold get_latest_details get_object
    rw [h]

theorem claim_C7_wit :
    get_latest_details plW stNF "b" "m" = .ok none none ∧
    get_latest_details plW stErr "b" "m" = .fatal 1 (some "AccessDenied") ∧
    get_latest_details plW stNC "b" "m" = .fatal 1 none :=
  ⟨(claim_C7 plW stNF "b" "m").1 rfl,
   (claim_C7 plW stErr "b" "m").2.1 "AccessDenied" rfl (by decide) (by decide),
   (claim_C7 plW stNC "b" "m").2.2 rfl⟩

/-- C8: when `create_zip` runs with a version string over the root
folder pair whose first listed file is `module.yml` and succeeds, the
`module.yml` entry (the archive's first entry) holds the parsed manifest
with its version field rewritten to the supplied version, re-serialized
— and the on-disk filesystem is left untouched (the rewritten copy goes
through a temp file only). -/
theorem claim_C8 (ym : YamlModel) (fs : FS) (v : String) (rest : List String)
    (more : List (String × List String)) (fi : FileInfo) (conf : Conf) (st' : ZState)
    (hfs : fs "." "module.yml" = some fi) (hp : ym.parse fi.content = some conf)
    (hok : create_zip_run ym fs ((".", "module.yml" :: rest) :: more) (some v) = .ok st') :
    st'.entries.head? = some (add_file false fi.mtime fi.mode "module.yml"
        (ym.dump { conf with version := v })) ∧
    st'.fs = fs := by
  unfold create_zip_run zipFolders at hok
  cases hmid : zipPaths ym (some v) "." ("module.yml" :: rest)
      { fs := fs, tmp := [], counter := 0, entries := [] } with
  | error e =>
    rw [hmid] at hok
    exact Except.noConfusion hok
  | ok mid =>
    rw [hmid] at hok
    unfold zipPaths at hmid
    rw [@zipPath_special_ok ym v { fs := fs, tmp := [], counter := 0, entries := [] }
      fi conf hfs hp] at hmid
    obtain ⟨hf1, _, t1, he1⟩ := zipPaths_frame hmid
    obtain ⟨hf2, _, t2, he2⟩ := zipFolders_frame hok
    constructor
    · rw [he2, he1]
      rfl
    · rw [hf2, hf1]

theorem claim_C8_wit :
    stC8.entries.head? = some (add_file false fiW1.mtime fiW1.mode "module.yml"
        (ymW.dump { confW with version := "2.0" })) ∧
    stC8.fs = fsW8 :=
  claim_C8 ymW fsW8 "2.0" [] [] fiW1 confW stC8 rfl rfl rfl

theorem mem_ite_nil {C : Prop} [Decidable C] {x : String} {l : List String} :
    x ∈ (if C then l else []) ↔ C ∧ x ∈ l := by
  split <;> simp [*]

theorem mem_itemsFilesMd5 {g : GlobFn} {k x : String} :
    ∀ {arts : List ArtifactItem},
      x ∈ itemsFilesMd5 g k arts ↔
        ∃ it, it ∈ arts ∧ (it.folder = k ∧ it.include_in_md5 = true) ∧
          x ∈ matchedFiles g it := by
  intro arts
  induction arts with
  | nil => simp [itemsFilesMd5]
  | cons it rest ih =>
    simp only [itemsFilesMd5, List.mem_append, ih, mem_ite_nil, List.mem_cons]
    constructor
    · rintro (⟨hc, hx⟩ | ⟨j, hj, hcj, hxj⟩)
      · exact ⟨it, Or.inl rfl, hc, hx⟩
      · exact ⟨j, Or.inr hj, hcj, hxj⟩
    · rintro ⟨j, (rfl | hj), hcj, hxj⟩
      · exact Or.inl ⟨hcj, hxj⟩
      · exact Or.inr ⟨j, hj, hcj, hxj⟩

/-- C9: permuting the declaration order of the artifact groups (over
unchanged files, i.e. the same glob results) leaves the hash-only
mapping of `collect_files` — and hence the fingerprint `calc_md5`
computes from it — unchanged. -/
theorem claim_C9 (g : GlobFn) (ym : YamlModel) (digest : List ZipEntry → String) (fs : FS)
    (a a' : List ArtifactItem) (hperm : a.Perm a') :
    (collect_files g a).2 = (collect_files g a').2 ∧
    calc_md5 ym digest fs (collect_files g a).2
      = calc_md5 ym digest fs (collect_files g a').2 := by
  have hsnd : (collect_files g a).2 = (collect_files g a').2 := by
    rw [collect_files_snd, collect_files_snd]
    have hkeys : sortedDedup (a.map (fun it => it.folder))
        = sortedDedup (a'.map (fun it => it.folder)) := by
      apply sortedDedup_congr
      intro x
      constructor <;> intro hx <;> rcases List.mem_map.mp hx with ⟨it, hit, rfl⟩
      · exact List.mem_map.mpr ⟨it, hperm.mem_iff.mp hit, rfl⟩
      · exact List.mem_map.mpr ⟨it, hperm.mem_iff.mpr hit, rfl⟩
    rw [hkeys]
    apply List.map_congr_left
    intro k _
    have hvals : md5Spec g a k = md5Spec g a' k := by
      unfold md5Spec
      apply sortedDedup_congr
      intro x
      rw [mem_itemsFilesMd5, mem_itemsFilesMd5]
      constructor <;> rintro ⟨it, hit, hcond, hx⟩
      · exact ⟨it, hperm.mem_iff.mp hit, hcond, hx⟩
      · exact ⟨it, hperm.mem_iff.mpr hit, hcond, hx⟩
    rw [hvals]
  exact ⟨hsnd, by rw [calc_md5, calc_md5, hsnd]⟩

theorem claim_C9_wit :
    (collect_files gW [itW1, itW2]).2 = (collect_files gW [itW2, itW1]).2 ∧
    calc_md5 ymW digestW fsW1 (collect_files gW [itW1, itW2]).2
      = calc_md5 ymW digestW fsW1 (collect_files gW [itW2, itW1]).2 :=
  claim_C9 gW ymW digestW fsW1 [itW1, itW2] [itW2, itW1] (List.Perm.swap itW2 itW1 [])

theorem installFetch_trace (store : Store) (unzipOk : Bool) (fs : LocalFS) (tr : List Action)
    (path bucket module_name v : String) :
    ∃ t, (installFetch store unzipOk fs tr path bucket module_name v).trace = tr ++ t := by
  unfold installFetch
  dsimp only
  cases hobj : get_object store bucket (moduleKey module_name v) with
  | found body =>
    cases unzipOk
    · exact ⟨_, rfl⟩
    · exact ⟨_, rfl⟩
  | notFound => exact ⟨_, rfl⟩
  | fatal c r => exact ⟨_, rfl⟩
  | raised => exact ⟨_, rfl⟩

theorem installFetch_fs (store : Store) (unzipOk : Bool) (fs : LocalFS) (tr : List Action)
    (path bucket module_name v : String) :
    ((installFetch store unzipOk fs tr path bucket module_name v).outcome
        = .skippedNoVersion ∨
      ∃ v', (installFetch store unzipOk fs tr path bucket module_name v).outcome
        = .skippedNotFound v') →
    (installFetch store unzipOk fs tr path bucket module_name v).fs = fs := by
  unfold installFetch
  dsimp only
  cases hobj : get_object store bucket (moduleKey module_name v) with
  | found body =>
    cases unzipOk
    · rintro (h | ⟨v', h⟩) <;> exact InstallOutcome.noConfusion h
    · rintro (h | ⟨v', h⟩) <;> exact InstallOutcome.noConfusion h
  | notFound =>
    intro _
    rfl
  | fatal c r => rintro (h | ⟨v', h⟩) <;> exact InstallOutcome.noConfusion h
  | raised => rintro (h | ⟨v', h⟩) <;> exact InstallOutcome.noConfusion h

theorem installLatest_trace (parseLatest : List Nat → Option (String × String)) (store : Store)
    (unzipOk : Bool) (fs : LocalFS) (tr : List Action) (path bucket module_name : String) :
    ∃ t, (installLatest parseLatest store unzipOk fs tr path bucket module_name).trace
      = tr ++ t := by
  unfold installLatest
  cases hres : get_latest_details parseLatest store bucket module_name with
  | ok oversion omd5 =>
    cases oversion with
    | some v =>
      obtain ⟨t, ht⟩ := installFetch_trace store unzipOk fs (tr ++ [.fetchLatest module_name])
        path bucket module_name v
      exact ⟨[Action.fetchLatest module_name] ++ t, by rw [ht, List.append_assoc]⟩
    | none => exact ⟨_, rfl⟩
  | fatal c r => exact ⟨_, rfl⟩
  | raised => exact ⟨_, rfl⟩

theorem installLatest_fs (parseLatest : List Nat → Option (String × String)) (store : Store)
    (unzipOk : Bool) (fs : LocalFS) (tr : List Action) (path bucket module_name : String) :
    ((installLatest parseLatest store unzipOk fs tr path bucket module_name).outcome
        = .skippedNoVersion ∨
      ∃ v', (installLatest parseLatest store unzipOk fs tr path bucket module_name).outcome
        = .skippedNotFound v') →
    (installLatest parseLatest store unzipOk fs tr path bucket module_name).fs = fs := by
  unfold installLatest
  cases hres : get_latest_details parseLatest store bucket module_name with
  | ok oversion omd5 =>
    cases oversion with
    | some v => exact installFetch_fs store unzipOk fs _ path bucket module_name v
    | none =>
      intro _
      rfl
  | fatal c r => rintro (h | ⟨v', h⟩) <;> exact InstallOutcome.noConfusion h
  | raised => rintro (h | ⟨v', h⟩) <;> exact InstallOutcome.noConfusion h

theorem installResolve_trace (parseLatest : List Nat → Option (String × String)) (store : Store)
    (unzipOk : Bool) (fs : LocalFS) (tr : List Action) (path bucket module_name : String)
    (version : Option String) :
    ∃ t, (installResolve parseLatest store unzipOk fs tr path bucket module_name version).trace
      = tr ++ t := by
  cases version with
  | none => exact installLatest_trace parseLatest store unzipOk fs tr path bucket module_name
  | some v =>
    rw [show installResolve parseLatest store unzipOk fs tr path bucket module_name (some v)
        = (if v = "latest" then installLatest parseLatest store unzipOk fs tr path bucket module_name
           else installFetch store unzipOk fs tr path bucket module_name v) from rfl]
    by_cases hv : v = "latest"
    · rw [if_pos hv]
      exact installLatest_trace parseLatest store unzipOk fs tr path bucket module_name
    · rw [if_neg hv]
      exact installFetch_trace store unzipOk fs tr path bucket module_name v

theorem installResolve_fs (parseLatest : List Nat → Option (String × String)) (store : Store)
    (unzipOk : Bool) (fs : LocalFS) (tr : List Action) (path bucket module_name : String)
    (version : Option String) :
    ((installResolve parseLatest store unzipOk fs tr path bucket module_name version).outcome
        = .skippedNoVersion ∨
      ∃ v', (installResolve parseLatest store unzipOk fs tr path bucket module_name
        version).outcome = .skippedNotFound v') →
    (installResolve parseLatest store unzipOk fs tr path bucket module_name version).fs = fs := by
  cases version with
  | none => exact installLatest_fs parseLatest store unzipOk fs tr path bucket module_name
  | some v =>
    rw [show installResolve parseLatest store unzipOk fs tr path bucket module_name (some v)
        = (if v = "latest" then installLatest parseLatest store unzipOk fs tr path bucket module_name
           else installFetch store unzipOk fs tr path bucket module_name v) from rfl]
    by_cases hv : v = "latest"
    · rw [if_pos hv]
      exact installLatest_fs parseLatest store unzipOk fs tr path bucket module_name
    · rw [if_neg hv]
      exact installFetch_fs store unzipOk fs tr path bucket module_name v

/-- C10: when a same-named module directory already exists locally (and
its removal succeeds), `install_module` removes it as its very first
step, before the version is resolved or the archive's existence is
checked; consequently, in the outcomes where the module or version is
subsequently not found (which return without error), the pre-existing
directory has already been deleted and is not restored. -/
theorem claim_C10 (parseLatest : List Nat → Option (String × String)) (store : Store)
    (unzipOk : Bool) (fs : LocalFS) (folder bucket module_name : String)
    (version : Option String)
    (hex : fs (folder ++ "/" ++ module_name) = true) :
    (install_module parseLatest store true unzipOk fs folder bucket module_name
        version).trace.head? = some (.removeTree (folder ++ "/" ++ module_name)) ∧
    (((install_module parseLatest store true unzipOk fs folder bucket module_name
          version).outcome = .skippedNoVersion ∨
        ∃ v, (install_module parseLatest store true unzipOk fs folder bucket module_name
          version).outcome = .skippedNotFound v) →
      (install_module parseLatest store true unzipOk fs folder bucket module_name
        version).fs (folder ++ "/" ++ module_name) = false) := by
  unfold install_module
  dsimp only
  rw [if_pos hex, if_pos rfl]
  constructor
  · obtain ⟨t, ht⟩ := installResolve_trace parseLatest store unzipOk
      (removeLocal fs (folder ++ "/" ++ module_name))
      [.removeTree (folder ++ "/" ++ module_name)] (folder ++ "/" ++ module_name)
      bucket module_name version
    rw [ht]
    rfl
  · intro hskip
    rw [installResolve_fs parseLatest store unzipOk
      (removeLocal fs (folder ++ "/" ++ module_name))
      [.removeTree (folder ++ "/" ++ module_name)] (folder ++ "/" ++ module_name)
      bucket module_name version hskip]
    simp [removeLocal]

theorem claim_C10_wit :
    (install_module plW stNF true true lfsW "modules" "b" "m" (some "1.0")).trace.head?
        = some (.removeTree ("modules" ++ "/" ++ "m")) ∧
    (((install_module plW stNF true true lfsW "modules" "b" "m" (some "1.0")).outcome
          = .skippedNoVersion ∨
        ∃ v, (install_module plW stNF true true lfsW "modules" "b" "m" (some "1.0")).outcome
          = .skippedNotFound v) →
      (install_module plW stNF true true lfsW "modules" "b" "m" (some "1.0")).fs
          ("modules" ++ "/" ++ "m") = false) :=
  claim_C10 plW stNF true lfsW "modules" "b" "m" (some "1.0") rfl

end CfnMod
